import Mathlib

/-!
Shallow embedding of the lanelet map engine of this repository
(src/map_api/lanelet.py and src/map_api/lanelet_layers.py) and proofs about it.

Conventions of the embedding:
* Coordinates live in an arbitrary linear ordered commutative ring R.  The
  source computes with floats; every claim settled here depends only on
  comparisons, signs and exact point equalities, so the theorems are stated
  over any R (in particular the rationals), while concrete witnesses and
  counterexamples use integer coordinates, on which floating point
  arithmetic is exact.
* Euclidean distances are represented by their squares, and exact division
  is avoided by carrying squared distances as numerator/denominator pairs
  (Frac) with positive denominators.  The square root is strictly monotone
  on the nonnegative reals, so every comparison, minimum, argmin and zero
  test the source performs on distances is preserved.
* Headings (angles produced by get_heading, an arctan2 of a direction
  vector) are represented by the direction vectors themselves, which
  determine the angle exactly; no settled claim inspects the numeric value
  of an angle, only which points it was derived from or the sign of a
  derived cardinal direction.  Midpoints (the cell center line) are carried
  with both coordinates doubled, which again determines them exactly and
  avoids division by two; cardinal-direction signs and distances against
  the center line are computed on the doubled frame, which scales both
  sides of every comparison by the same positive factor.
* Shapely polygon containment (Polygon.contains) is interior containment of
  a simple ring, embedded as the exact even-odd parity test minus the ring
  boundary; shapely exterior.distance is the distance to the boundary ring,
  embedded as the squared distance to the closest ring edge, the closing
  edge of the ring included.
* Fallible code paths (KeyError on a missing lane id, ValueError from
  np.argmin on an empty sequence, IndexError) are embedded with Except Unit.
-/

namespace L2

abbrev Pt (R : Type) : Type := R × R

abbrev Seg (R : Type) : Type := Pt R × Pt R

abbrev Polyline (R : Type) : Type := List (Pt R)

section Geometry

variable {R : Type} [LinearOrderedCommRing R]

/-- Twice the signed area of the triangle p q r; its sign is the orientation
of r relative to the directed line p -> q. -/
def orient2 (p q r : Pt R) : R :=
  (q.1 - p.1) * (r.2 - p.2) - (q.2 - p.2) * (r.1 - p.1)

/-- Point r lies in the closed bounding box of a and b. -/
def inBox (a b r : Pt R) : Bool :=
  decide (min a.1 b.1 ≤ r.1 ∧ r.1 ≤ max a.1 b.1 ∧ min a.2 b.2 ≤ r.2 ∧ r.2 ≤ max a.2 b.2)

/-- Point r lies on the closed segment from a to b. -/
def onSegB (a b r : Pt R) : Bool :=
  decide (orient2 a b r = 0) && inBox a b r

/-- Exact test whether two closed segments share at least one point
(the semantics of shapely LineString.intersects restricted to segments). -/
def segIntersects (s t : Seg R) : Bool :=
  let d1 := orient2 t.1 t.2 s.1
  let d2 := orient2 t.1 t.2 s.2
  let d3 := orient2 s.1 s.2 t.1
  let d4 := orient2 s.1 s.2 t.2
  (decide ((0 < d1 ∧ d2 < 0) ∨ (d1 < 0 ∧ 0 < d2)) &&
   decide ((0 < d3 ∧ d4 < 0) ∨ (d3 < 0 ∧ 0 < d4)))
  || onSegB t.1 t.2 s.1 || onSegB t.1 t.2 s.2
  || onSegB s.1 s.2 t.1 || onSegB s.1 s.2 t.2

/-- Consecutive segments of a polyline. -/
def segsOf (L : Polyline R) : List (Seg R) := L.zip L.tail

/-- Shapely LineString.intersects for two polylines: some pair of segments
shares a point. -/
def polyIntersects (L1 L2 : Polyline R) : Bool :=
  (segsOf L1).any fun s => (segsOf L2).any fun t => segIntersects s t

/-- Squared Euclidean distance between two points. -/
def sqDistPts (p q : Pt R) : R := (p.1 - q.1) * (p.1 - q.1) + (p.2 - q.2) * (p.2 - q.2)

/-- An exact nonnegative quantity num / den with positive denominator, used
to carry squared distances without dividing. -/
structure Frac (R : Type) where
  num : R
  den : R
deriving DecidableEq

/-- Embed a ring element as a fraction over denominator one. -/
def Frac.ofRing (n : R) : Frac R := ⟨n, 1⟩

/-- Strict comparison of fractions with positive denominators, by cross
multiplication. -/
def Frac.blt (a b : Frac R) : Bool := decide (a.num * b.den < b.num * a.den)

/-- Non-strict comparison of fractions with positive denominators. -/
def Frac.ble (a b : Frac R) : Bool := decide (a.num * b.den ≤ b.num * a.den)

/-- Multiply the represented value by a sign factor. -/
def Frac.scaleNum (s : R) (f : Frac R) : Frac R := ⟨s * f.num, f.den⟩

/-- Divide the represented value by four (used to undo the doubled frame of
center-line computations). -/
def Frac.quarter (f : Frac R) : Frac R := ⟨f.num, 4 * f.den⟩

/-- Squared distance from a point to a closed segment: the perpendicular
foot clamped to the endpoints, as for shapely distance to a LineString.
With t = dot / len2 the unclamped foot, t <= 0 and t >= 1 give the
endpoints and otherwise the squared distance is
(|p - a|^2 * len2 - dot^2) / len2, carried exactly as a fraction. -/
def sqDistPtSeg (p : Pt R) (s : Seg R) : Frac R :=
  let dx := s.2.1 - s.1.1
  let dy := s.2.2 - s.1.2
  let len2 := dx * dx + dy * dy
  let dot := (p.1 - s.1.1) * dx + (p.2 - s.1.2) * dy
  if len2 = 0 then Frac.ofRing (sqDistPts p s.1)
  else if dot ≤ 0 then Frac.ofRing (sqDistPts p s.1)
  else if len2 ≤ dot then Frac.ofRing (sqDistPts p s.2)
  else ⟨sqDistPts p s.1 * len2 - dot * dot, len2⟩

/-- Edges of a polygon ring given by its vertex list (closing edge included,
as in a shapely exterior ring). -/
def ringEdges (R0 : List (Pt R)) : List (Seg R) :=
  match R0 with
  | [] => []
  | r :: _ => R0.zip (R0.tail ++ [r])

/-- Squared distance from a point to the closed exterior ring of a polygon:
the minimum of the squared point-segment distances over ringEdges, so the
closing edge of the ring participates exactly as in shapely
Polygon.exterior.distance (junk value 0 for an empty ring). -/
def sqDistPtRing (p : Pt R) (L : Polyline R) : Frac R :=
  match (ringEdges L).map (sqDistPtSeg p) with
  | [] => Frac.ofRing 0
  | d :: ds => ds.foldl (fun acc x => if Frac.blt x acc then x else acc) d

/-- One step of the even-odd crossing test for point-in-polygon, in
division-free form: the edge straddles the horizontal through p, and p is
strictly left of the crossing point, i.e. the numerator
(b1 - a1)(p2 - a2) - (p1 - a1)(b2 - a2) has the sign of (b2 - a2). -/
def pnpolyEdge (p : Pt R) (e : Seg R) : Bool :=
  let a := e.1
  let b := e.2
  (decide (p.2 < a.2) != decide (p.2 < b.2)) &&
    (let num := (b.1 - a.1) * (p.2 - a.2) - (p.1 - a.1) * (b.2 - a.2)
     decide ((0 < b.2 - a.2 ∧ 0 < num) ∨ (b.2 - a.2 < 0 ∧ num < 0)))

/-- Even-odd inside test for a simple polygon ring (boundary not handled). -/
def insideRing (R0 : List (Pt R)) (p : Pt R) : Bool :=
  (ringEdges R0).foldl (fun acc e => if pnpolyEdge p e then !acc else acc) false

/-- Point lies on the boundary ring. -/
def onRing (R0 : List (Pt R)) (p : Pt R) : Bool :=
  (ringEdges R0).any fun e => onSegB e.1 e.2 p

/-- Shapely Polygon.contains for a simple ring: the point is interior,
i.e. inside by parity and not on the boundary. -/
def ringContains (R0 : List (Pt R)) (p : Pt R) : Bool :=
  insideRing R0 p && !onRing R0 p

/-- First point of a polyline (junk (0, 0) on the empty list). -/
def headPt (L : Polyline R) : Pt R := L.head?.getD (0, 0)

/-- Last point of a polyline (junk (0, 0) on the empty list). -/
def lastPt (L : Polyline R) : Pt R := L.getLast?.getD (0, 0)

/-- Lanelet.has_opposing_linestrings of src/map_api/lanelet_layers.py:
the last left-bound point is strictly closer to the first right-bound point
than to the last right-bound point.  The source compares shapely distances;
comparing squared distances is equivalent. -/
def has_opposing_linestrings (lb rb : Polyline R) : Bool :=
  decide (sqDistPts (lastPt lb) (headPt rb) < sqDistPts (lastPt lb) (lastPt rb))

/-- First phase of Lanelet.align_bounds: reverse the right bound when the
two bounds run in opposing directions. -/
def align_phase1 (lb rb : Polyline R) : Polyline R :=
  if has_opposing_linestrings lb rb then rb.reverse else rb

/-- Modelled from the spec: the source tests
get_cardinal_direction(rt0, heading(rt0, rt1), lt0) < 0 (and >= -pi, which
always holds for an angle wrapped into (-pi, pi]).  get_heading and
get_cardinal_direction live in src/data/geometry.py, which is absent from
src/; per the spec (section 4.1) and tests/test_geometry.py the cardinal
direction is the wrapped difference between the bearing of (target - origin)
and the heading, so it is negative exactly when the target lies strictly to
the right of the ray, i.e. when the cross product of the ray direction with
(target - origin) is negative.  The embedding uses that exact sign test. -/
def second_reversal_cond (lb rb1 : Polyline R) : Bool :=
  let rt0 := headPt rb1
  let rt1 := (rb1.tail).headD (0, 0)
  let lt0 := headPt lb
  decide ((rt1.1 - rt0.1) * (lt0.2 - rt0.2) - (rt1.2 - rt0.2) * (lt0.1 - rt0.1) < 0)

/-- Lanelet.align_bounds: phase one possibly reverses the right bound;
phase two reverses both bounds when the left-bound start lies to the right
of the initial right-bound direction. -/
def align_bounds (lb rb : Polyline R) : Polyline R × Polyline R :=
  let rb1 := align_phase1 lb rb
  if second_reversal_cond lb rb1 then (lb.reverse, rb1.reverse) else (lb, rb1)

end Geometry

/-- A parsed lanelet as stored by MapReader: id, subtype tag and the two
boundary polylines (after alignment). -/
structure LaneletRec (R : Type) where
  id_ : Nat
  subtype : String
  left_bound : Polyline R
  right_bound : Polyline R
deriving DecidableEq

section Lanelets

variable {R : Type} [LinearOrderedCommRing R]

/-- Lanelet.polygon: ring formed by the left bound followed by the right
bound, the latter reversed when the bounds run in the same direction
(buffer(0) on a valid simple ring is the identity and is omitted). -/
def lanelet_ring (l : LaneletRec R) : List (Pt R) :=
  l.left_bound ++
    (if !has_opposing_linestrings l.left_bound l.right_bound
     then l.right_bound.reverse else l.right_bound)

/-- is_connected of MapReader.extract_lanes: the left bounds intersect and
the right bounds intersect. -/
def is_connected (l1 l2 : LaneletRec R) : Bool :=
  polyIntersects l1.left_bound l2.left_bound &&
    polyIntersects l1.right_bound l2.right_bound

end Lanelets

section Graph

variable {α : Type} [DecidableEq α]

/-- All ordered pairs (xs i, xs j) with i < j, in the order of the double
loop of extract_lanes and align_lanelets. -/
def pairsUpper : List α → List (α × α)
  | [] => []
  | x :: xs => xs.map (fun y => (x, y)) ++ pairsUpper xs

/-- Deduplication keeping the first occurrence of each element, with an
explicit seen accumulator (the node insertion order of a networkx graph). -/
def dedupFirstAux (seen : List α) : List α → List α
  | [] => []
  | x :: xs => if x ∈ seen then dedupFirstAux seen xs
               else x :: dedupFirstAux (x :: seen) xs

/-- Deduplication keeping first occurrences. -/
def dedupFirst (l : List α) : List α := dedupFirstAux [] l

/-- Nodes of an edge list in networkx insertion order: each edge adds its
endpoints in order, keeping first occurrences. -/
def nodesFromEdges (E : List (α × α)) : List α :=
  dedupFirst (E.flatMap fun e => [e.1, e.2])

/-- Neighbors of a node in an undirected edge list (either endpoint). -/
def nbrsOf (E : List (α × α)) (a : α) : Finset α :=
  (E.filterMap fun e =>
    if e.1 = a then some e.2 else if e.2 = a then some e.1 else none).toFinset

/-- One breadth step of reachable-set closure. -/
def closeStep (E : List (α × α)) (S : Finset α) : Finset α :=
  S ∪ S.biUnion (nbrsOf E)

/-- Iterated closure. -/
def reachN (E : List (α × α)) : Nat → Finset α → Finset α
  | 0, S => S
  | n + 1, S => closeStep E (reachN E n S)

/-- The connected component of v (nx.descendants plus v itself): enough
closure steps to saturate over the at most 2 * E.length + 1 nodes. -/
def compOf (E : List (α × α)) (v : α) : Finset α :=
  reachN E (2 * E.length + 1) {v}

/-- The component-extraction loop of extract_lanes: repeatedly take the
first remaining node, form its component, emit it as a lane, and drop its
members from the remaining node list. -/
def extractLoop (E : List (α × α)) : Nat → List α → Nat → List (Nat × List α)
  | 0, _, _ => []
  | _, [], _ => []
  | fuel + 1, v :: rest, k =>
    let c := compOf E v
    (k, (v :: rest).filter fun u => decide (u ∈ c)) ::
      extractLoop E fuel (rest.filter fun u => !decide (u ∈ c)) (k + 1)

/-- Adjacency relation of an edge list (undirected reading). -/
def adjRel (E : List (α × α)) (a b : α) : Prop := (a, b) ∈ E ∨ (b, a) ∈ E

end Graph

section Lanes

variable {R : Type} [LinearOrderedCommRing R]

/-- Edge list of the lanelet connectivity graph of extract_lanes: pairs of
distinct lanelets whose left bounds intersect and whose right bounds
intersect, in double-loop order. -/
def laneEdges (ls : List (LaneletRec R)) : List (LaneletRec R × LaneletRec R) :=
  (pairsUpper ls).filter fun e => is_connected e.1 e.2

/-- MapReader.extract_lanes: build the connectivity graph, then emit each
connected component as a lane keyed by a running counter.  Lanelets with no
edge at all never enter the graph and are not assigned to any lane.  The
source lists a component in the iteration order of a Python set; the
embedding lists it in node insertion order, which settles the same
membership facts. -/
def extract_lanes (ls : List (LaneletRec R)) : List (Nat × List (LaneletRec R)) :=
  let E := laneEdges ls
  let nodes := nodesFromEdges E
  extractLoop E nodes.length nodes 0

/-- The connectivity relation of the spec for a lanelet list: both lanelets
are in the list, differ, and their left bounds as well as their right bounds
intersect. -/
def connRel (ls : List (LaneletRec R)) (a b : LaneletRec R) : Prop :=
  a ∈ ls ∧ b ∈ ls ∧ a ≠ b ∧ (is_connected a b = true ∨ is_connected b a = true)

/-- First point of the left bound of a lanelet. -/
def leftStartPt (l : LaneletRec R) : Pt R := headPt l.left_bound

/-- Last point of the left bound of a lanelet. -/
def leftEndPt (l : LaneletRec R) : Pt R := lastPt l.left_bound

/-- Segments are collinear and overlap in more than one point. -/
def collinearOverlap (s t : Seg R) : Bool :=
  decide (orient2 t.1 t.2 s.1 = 0 ∧ orient2 t.1 t.2 s.2 = 0 ∧
          orient2 s.1 s.2 t.1 = 0 ∧ orient2 s.1 s.2 t.2 = 0) &&
  (decide (max (min s.1.1 s.2.1) (min t.1.1 t.2.1) <
           min (max s.1.1 s.2.1) (max t.1.1 t.2.1)) ||
   decide (max (min s.1.2 s.2.2) (min t.1.2 t.2.2) <
           min (max s.1.2 s.2.2) (max t.1.2 t.2.2)))

/-- The intersection of two segments is contained in the single point p:
either they do not meet, or they meet in exactly one point (no collinear
overlap) and p lies on both, hence equals that point. -/
def segOnlyInterAt (s t : Seg R) (p : Pt R) : Bool :=
  !segIntersects s t ||
    (!collinearOverlap s t && onSegB s.1 s.2 p && onSegB t.1 t.2 p)

/-- The intersection of two polylines is contained in the single point p. -/
def polyOnlyInterAt (L1 L2 : Polyline R) (p : Pt R) : Bool :=
  (segsOf L1).all fun s => (segsOf L2).all fun t => segOnlyInterAt s t p

/-- get_order of Lane.align_lanelets: the left bounds must intersect in a
single point; if that point is the end of the first left bound and the start
of the second, node1 is the parent (some true); if it is the start of the
first and the end of the second, node1 is the child (some false); any other
geometry (several intersection points, an overlap, or an interior meeting
point) gives none, exactly as the equality comparisons of the source fail
on a non-point or non-matching intersection. -/
def getOrder (n1 n2 : LaneletRec R) : Option Bool :=
  if !polyIntersects n1.left_bound n2.left_bound then none
  else if polyOnlyInterAt n1.left_bound n2.left_bound (leftEndPt n1) &&
          decide (leftEndPt n1 = leftStartPt n2) then some true
  else if polyOnlyInterAt n1.left_bound n2.left_bound (leftStartPt n1) &&
          decide (leftStartPt n1 = leftEndPt n2) then some false
  else none

/-- Directed edge list built by Lane.align_lanelets: for each pair in double
loop order, a parent relation adds the edge (n1, n2) and a child relation
adds (n2, n1). -/
def orderEdges (ls : List (LaneletRec R)) : List (LaneletRec R × LaneletRec R) :=
  (pairsUpper ls).filterMap fun e =>
    (getOrder e.1 e.2).map fun b => if b then e else (e.2, e.1)

end Lanes

section Kahn

variable {α : Type} [DecidableEq α]

/-- Number of edges into v whose source has not been output yet (the live
indegree maintained by the Kahn algorithm of nx.topological_sort). -/
def indegRem (E : List (α × α)) (out : List α) (v : α) : Nat :=
  (E.filter fun e => e.2 = v ∧ e.1 ∉ out).length

/-- Kahn loop: pop the last stack entry, output it, and push every child
whose live indegree drops to zero, in edge order. -/
def kahnAux (E : List (α × α)) : Nat → List α → List α → List α
  | 0, _, out => out
  | fuel + 1, stack, out =>
    match stack.getLast? with
    | none => out
    | some n =>
      let out1 := out ++ [n]
      let freed := E.filterMap fun e =>
        if e.1 = n ∧ indegRem E out1 e.2 = 0 then some e.2 else none
      kahnAux E fuel (stack.dropLast ++ freed) out1

/-- nx.topological_sort on the directed edge list: nodes in insertion
order, initial stack the nodes of indegree zero, then the Kahn loop. -/
def kahnSort (E : List (α × α)) : List α :=
  let nodes := nodesFromEdges E
  kahnAux E (nodes.length + 1) (nodes.filter fun v => indegRem E [] v = 0) []

end Kahn

section MatchEngine

variable {R : Type} [LinearOrderedCommRing R]

/-- Lane.align_lanelets, ordering part: the lanelet list is replaced by the
topological sort of the parent/child graph (lanelets that appear in no
parent/child edge are dropped by the source as well, since nx only sorts
the nodes of the graph). -/
def lanelets_order (ls : List (LaneletRec R)) : List (LaneletRec R) :=
  kahnSort (orderEdges ls)

end MatchEngine

/-- A Cell as stored on a Lane: exterior ring of its polygon, the direction
vector whose bearing is the cell heading, and the two-point left and right
bound sub-segments.  The source stores the heading angle; the embedding
stores the vector the angle was computed from. -/
structure CellRec (R : Type) where
  ring : List (Pt R)
  headingVec : Pt R
  left_bound : Seg R
  right_bound : Seg R
deriving DecidableEq

section Cells

variable {R : Type} [LinearOrderedCommRing R]

/-- Direction vector of a two-point segment (the data of its heading). -/
def segVec (s : Seg R) : Pt R := (s.2.1 - s.1.1, s.2.2 - s.1.2)

/-- A point with both coordinates doubled. -/
def dbl (p : Pt R) : Pt R := (p.1 + p.1, p.2 + p.2)

/-- Cell.center_line carried in the doubled frame: the endpoints are the
coordinate sums of the corresponding bound endpoints, i.e. twice the
midpoints the source computes with mid_point. -/
def CellRec.center2 (c : CellRec R) : Seg R :=
  ((c.left_bound.1.1 + c.right_bound.1.1, c.left_bound.1.2 + c.right_bound.1.2),
   (c.left_bound.2.1 + c.right_bound.2.1, c.left_bound.2.2 + c.right_bound.2.2))

end Cells

/-- A Lane as read by MapReader.match: the exterior ring of its polygon
(the unary union of its lanelet polygons) and its cell list. -/
structure LaneRec (R : Type) where
  ring : List (Pt R)
  cells : List (CellRec R)
deriving DecidableEq

/-- The lanes dictionary of a MapReader, in insertion order. -/
structure MapState (R : Type) where
  lanes : List (Nat × LaneRec R)
deriving DecidableEq

/-- First value bound to a key in an association list (Python dict lookup;
none models a KeyError). -/
def assocFind? {β : Type} (l : List (Nat × β)) (k : Nat) : Option β :=
  match l with
  | [] => none
  | kv :: rest => if kv.1 = k then some kv.2 else assocFind? rest k

section CardSign

variable {R : Type} [LinearOrderedCommRing R]

/-- Modelled from the spec: the sign of get_cardinal_direction of
src/data/geometry.py (absent from src/), composed with the stored heading.
Per spec section 4.1 and tests/test_geometry.py the cardinal direction is
the difference between the bearing of (target - origin) and the heading,
wrapped into (-pi, pi], and is 0 when target equals origin.  Its sign is +1
strictly left of the ray (positive cross product), -1 strictly right, +1
directly behind (the wrap maps the tie to +pi) and 0 directly ahead.  The
heading is passed as the direction vector it is the bearing of; origin and
target are passed in the doubled frame (see dbl), which rescales the cross
and dot products by the positive factor two and preserves every sign. -/
def cardSign2 (o2 : Pt R) (dir : Pt R) (t2 : Pt R) : R :=
  if t2 = o2 then 0
  else
    let cross := dir.1 * (t2.2 - o2.2) - dir.2 * (t2.1 - o2.1)
    if 0 < cross then 1
    else if cross < 0 then -1
    else if dir.1 * (t2.1 - o2.1) + dir.2 * (t2.2 - o2.2) < 0 then 1 else 0

/-- Index of the first minimum of a list (np.argmin), accumulator form;
comparisons are the strict fraction comparison. -/
def argminAux : List (Frac R) → Frac R → Nat → Nat → Nat
  | [], _, _, besti => besti
  | x :: xs, best, i, besti =>
    if Frac.blt x best then argminAux xs x (i + 1) i
    else argminAux xs best (i + 1) besti

/-- np.argmin: first index attaining the minimum; none on an empty list
(where the source raises ValueError). -/
def argminF : List (Frac R) → Option Nat
  | [] => none
  | x :: xs => some (argminAux xs x 1 0)

end CardSign

/-- Index of the first list entry satisfying the predicate, counting from
the given start index (the enumerate-and-break scan of get_target_cell_id). -/
def firstIdxFrom {β : Type} (p : β → Bool) : Nat → List β → Option Nat
  | _, [] => none
  | i, c :: cs => if p c then some i else firstIdxFrom p (i + 1) cs

section MatchDefs

variable {R : Type} [LinearOrderedCommRing R]

/-- get_target_cell_id of MapReader.match: when no target lane was given,
scan the cells for one whose polygon contains the point; if the scan was
skipped or found nothing, fall back to the cell whose exterior ring is
nearest (first index on ties).  The error case is np.argmin of an empty
sequence. -/
def get_target_cell_id (targetIsNone : Bool) (cells : List (CellRec R)) (p : Pt R) :
    Except Unit Nat :=
  let c0 : Option Nat :=
    if targetIsNone then firstIdxFrom (fun c => ringContains c.ring p) 0 cells else none
  match c0 with
  | some i => Except.ok i
  | none =>
    match argminF (cells.map fun c => sqDistPtRing p c.ring) with
    | some i => Except.ok i
    | none => Except.error ()

end MatchDefs

/-- The record returned by MapReader.match.  Unmatched fields are none; the
three signed distances carry the cardinal sign times the squared distance
(sign and noneness are what the settled claims inspect); a lookahead row
holds the direction vectors of the left-bound, right-bound and center-line
headings of the cell, or none for a nan-padded row. -/
structure MatchResult (R : Type) where
  lane_id : Option Nat
  cell_id : Option Nat
  left_bound_dist : Option (Frac R)
  right_bound_dist : Option (Frac R)
  center_line_dist : Option (Frac R)
  cell_headings : List (Option (Pt R × Pt R × Pt R))
deriving DecidableEq

section MatchBody

variable {R : Type} [LinearOrderedCommRing R]

/-- The all-empty result of an unmatched query. -/
def noMatchResult (maxCells : Nat) : MatchResult R :=
  { lane_id := none, cell_id := none, left_bound_dist := none,
    right_bound_dist := none, center_line_dist := none,
    cell_headings := List.replicate maxCells none }

/-- The result record built in the matched-lane branch of MapReader.match:
the three signed distances against the cell bounds and center line, and the
lookahead heading rows filled up to min(num_cells, cell_id + max_cells). -/
def matchedRecord (lid : Nat) (lane : LaneRec R) (x y : R) (maxCells cid : Nat)
    (cell : CellRec R) : MatchResult R :=
  let p : Pt R := (x, y)
  let lcard := cardSign2 (dbl cell.left_bound.1) cell.headingVec (dbl p)
  let rcard := cardSign2 (dbl cell.right_bound.1) cell.headingVec (dbl p)
  let ccard := cardSign2 cell.center2.1 cell.headingVec (dbl p)
  let lastId := min lane.cells.length (cid + maxCells)
  let headings := (List.range maxCells).map fun i =>
    if cid + i < lastId then
      match lane.cells[cid + i]? with
      | some c => some (segVec c.left_bound, segVec c.right_bound, segVec c.center2)
      | none => none
    else none
  { lane_id := some lid, cell_id := some cid,
    left_bound_dist := some (Frac.scaleNum (-lcard) (sqDistPtSeg p cell.left_bound)),
    right_bound_dist := some (Frac.scaleNum rcard (sqDistPtSeg p cell.right_bound)),
    center_line_dist :=
      some (Frac.scaleNum ccard (Frac.quarter (sqDistPtSeg (dbl p) cell.center2))),
    cell_headings := headings }

/-- The matched-lane branch of MapReader.match: pick the cell and build the
result record; the impossible out-of-range index is an IndexError. -/
def matchInLane (target : Option Nat) (lid : Nat) (lane : LaneRec R)
    (x y : R) (maxCells : Nat) : Except Unit (MatchResult R) :=
  match get_target_cell_id target.isNone lane.cells (x, y) with
  | Except.error e => Except.error e
  | Except.ok cid =>
    match lane.cells[cid]? with
    | none => Except.error ()
    | some cell => Except.ok (matchedRecord lid lane x y maxCells cid cell)

/-- MapReader.match: restrict the search to the target lane when given
(KeyError when absent), otherwise scan all lanes in insertion order; enter
the first lane that contains the point (always entered when a target lane
was given); return the all-empty result when no lane qualifies. -/
def matchPt (s : MapState R) (x y : R) (target : Option Nat) (maxCells : Nat) :
    Except Unit (MatchResult R) :=
  match (match target with
         | some t => (assocFind? s.lanes t).map fun lane => [(t, lane)]
         | none => some s.lanes) with
  | none => Except.error ()
  | some searchLanes =>
    match searchLanes.find? (fun q => target.isSome || ringContains q.2.ring (x, y)) with
    | none => Except.ok (noMatchResult maxCells)
    | some (lid, lane) => matchInLane target lid lane x y maxCells

/-- Lane id of a match outcome (none on an exception). -/
def resLaneId (e : Except Unit (MatchResult R)) : Option Nat :=
  match e with
  | Except.ok r => r.lane_id
  | Except.error _ => none

/-- Cell id of a match outcome (none on an exception). -/
def resCellId (e : Except Unit (MatchResult R)) : Option Nat :=
  match e with
  | Except.ok r => r.cell_id
  | Except.error _ => none

end MatchBody

/-- The record returned by MapReader.match_frenet; unmatched fields none. -/
structure FrenetResult (R : Type) where
  lane_id : Option Nat
  psi_tan : Option R
  center_line_dist : Option R
  left_bound_dist : Option R
  right_bound_dist : Option R
  wp_coords : Option (List (Pt R))
  wp_headings : Option (List R)
deriving DecidableEq

section FrenetBody

variable {R : Type} [LinearOrderedCommRing R]

/-- The all-empty result of an unmatched frenet query. -/
def noFrenetResult : FrenetResult R :=
  { lane_id := none, psi_tan := none, center_line_dist := none,
    left_bound_dist := none, right_bound_dist := none,
    wp_coords := none, wp_headings := none }

/-- The result record built in the matched branch of match_frenet.
Modelled from the spec: Lane.get_frenet_coords and Lane.get_waypoints (the
frenet projector of src/map_api/frenet.py) are absent from src/; per spec
sections 4.3 and 4.6 they are total functions of the lane and the query
returning (x_tan, y_tan, psi_tan, centerline_dist, left_bound_dist,
right_bound_dist) and the lookahead waypoints, so the embedding takes them
as function parameters.  The farpoint distances cell_len * (1..max_cells)
follow the source. -/
def frenetRecord
    (frenetCoords : LaneRec R → R → R → R × R × R × R × R × R)
    (waypointsFn : LaneRec R → R → R → List R → List (Pt R) × List R)
    (cellLen : R) (lid : Nat) (lane : LaneRec R) (x y : R) (maxCells : Nat) :
    FrenetResult R :=
  let out := frenetCoords lane x y
  let farpointDists := (List.range maxCells).map fun i => cellLen * ((i : R) + 1)
  let wp := waypointsFn lane out.1 out.2.1 farpointDists
  { lane_id := some lid, psi_tan := some out.2.2.1,
    center_line_dist := some out.2.2.2.1,
    left_bound_dist := some out.2.2.2.2.1,
    right_bound_dist := some out.2.2.2.2.2,
    wp_coords := some wp.1, wp_headings := some wp.2 }

/-- MapReader.match_frenet: the same lane-selection policy as match, with
the frenet outputs of frenetRecord in the matched branch. -/
def match_frenet
    (frenetCoords : LaneRec R → R → R → R × R × R × R × R × R)
    (waypointsFn : LaneRec R → R → R → List R → List (Pt R) × List R)
    (cellLen : R) (s : MapState R) (x y : R) (target : Option Nat)
    (maxCells : Nat) : Except Unit (FrenetResult R) :=
  match (match target with
         | some t => (assocFind? s.lanes t).map fun lane => [(t, lane)]
         | none => some s.lanes) with
  | none => Except.error ()
  | some searchLanes =>
    match searchLanes.find? (fun q => target.isSome || ringContains q.2.ring (x, y)) with
    | none => Except.ok noFrenetResult
    | some (lid, lane) =>
      Except.ok (frenetRecord frenetCoords waypointsFn cellLen lid lane x y maxCells)

end FrenetBody

/-- np.insert(arr, -1, arr[-1]): insert a copy of the last element before
the last position, i.e. duplicate the final entry (junk [] on an empty
array, where the source raises IndexError first). -/
def npDupLast {β : Type} (xs : List β) : List β :=
  match xs.getLast? with
  | none => []
  | some a => xs.dropLast ++ [a, a]

/-- Modelled from the spec: dist_two_points of src/data/geometry.py (absent
from src/) is the Euclidean distance, used by L2Linestring.interpolate for
the cumulative arc length.  Real-valued since segment lengths are
irrational in general. -/
noncomputable def dist_two_points (x1 y1 x2 y2 : ℝ) : ℝ :=
  Real.sqrt ((x2 - x1) ^ 2 + (y2 - y1) ^ 2)

/-- Lengths of the consecutive segments of the resampled polyline. -/
noncomputable def seg_lengths (pts : List (ℝ × ℝ)) : List ℝ :=
  (pts.zip pts.tail).map fun s => dist_two_points s.1.1 s.1.2 s.2.1 s.2.2

/-- np.cumsum over the reals. -/
def cumsumFromR (acc : ℝ) : List ℝ → List ℝ
  | [] => []
  | d :: ds => (acc + d) :: cumsumFromR (acc + d) ds

/-- spline_cumdist of L2Linestring.interpolate: cumulative sums of the
resample segment lengths, with the last entry duplicated by
np.insert(cumdist, -1, cumdist[-1]).  The input is the resampled polyline
self.cubic_spline (the scipy resampling itself is an external collaborator). -/
noncomputable def spline_cumdist (pts : List (ℝ × ℝ)) : List ℝ :=
  npDupLast (cumsumFromR 0 (seg_lengths pts))

/-- spline_heading of L2Linestring.interpolate, represented by the direction
vectors of consecutive resampled points (get_heading is their bearing), with
the last entry duplicated by np.insert(heading, -1, heading[-1]). -/
def spline_heading_vecs (pts : List (ℝ × ℝ)) : List (ℝ × ℝ) :=
  npDupLast ((pts.zip pts.tail).map fun s => (s.2.1 - s.1.1, s.2.2 - s.1.2))

/-- A lanelet relation record as handed to MapReader.extract_lanelet after
parsing: id, subtype and the member left/right bound polylines. -/
structure RelationRec (R : Type) where
  rid : Nat
  subtype : String
  left_bound : Polyline R
  right_bound : Polyline R
deriving DecidableEq

/-- Python dict assignment on an association list: overwrite the value of an
existing key, else append. -/
def assocSet {β : Type} (l : List (Nat × β)) (k : Nat) (v : β) : List (Nat × β) :=
  if l.any (fun kv => kv.1 = k) then
    l.map fun kv => if kv.1 = k then (k, v) else kv
  else l ++ [(k, v)]

/-- The collections of a MapReader touched by the settled claims: the
lanelets and crosswalks dictionaries and the drivable-polygon memo.  The
memo holds the union of rings represented by the list of its constituent
lanelet rings; it is empty exactly when that list is empty (the truthiness
shapely gives an empty union). -/
structure ReaderState (R : Type) where
  lanelets : List (Nat × LaneletRec R)
  crosswalks : List (Nat × LaneletRec R)
  drivable_memo : Option (List (List (Pt R)))
deriving DecidableEq

section Reader

variable {R : Type} [LinearOrderedCommRing R]

/-- The state of a freshly constructed MapReader. -/
def initReader : ReaderState R :=
  { lanelets := [], crosswalks := [], drivable_memo := none }

/-- Build the stored Lanelet: align the bounds as extract_lanelet does. -/
def mkLanelet (r : RelationRec R) : LaneletRec R :=
  let ab := align_bounds r.left_bound r.right_bound
  { id_ := r.rid, subtype := r.subtype, left_bound := ab.1, right_bound := ab.2 }

/-- MapReader.extract_lanelet, storage part: a crosswalk-subtype lanelet
goes to the crosswalks dictionary, every other lanelet to the lanelets
dictionary. -/
def extract_lanelet (s : ReaderState R) (r : RelationRec R) : ReaderState R :=
  if r.subtype = "crosswalk" then
    { s with crosswalks := assocSet s.crosswalks r.rid (mkLanelet r) }
  else
    { s with lanelets := assocSet s.lanelets r.rid (mkLanelet r) }

/-- The union the drivable_polygon property computes: the polygons of all
non-crosswalk lanelets, represented by the list of their rings. -/
def drivableUnion (s : ReaderState R) : List (List (Pt R)) :=
  ((s.lanelets.map Prod.snd).filter fun l => l.subtype != "crosswalk").map lanelet_ring

/-- MapReader.drivable_polygon: return the memo when it is truthy (set and
non-empty, since shapely treats an empty union as falsy), else recompute
the union and store it.  The boolean of the result records whether the
union was computed on this access. -/
def drivable_polygon_read (s : ReaderState R) :
    List (List (Pt R)) × Bool × ReaderState R :=
  match s.drivable_memo with
  | some u =>
    if u ≠ [] then (u, false, s)
    else
      let u1 := drivableUnion s
      (u1, true, { s with drivable_memo := some u1 })
  | none =>
    let u1 := drivableUnion s
    (u1, true, { s with drivable_memo := some u1 })

end Reader

/-- A straight 40 x 2 lane split into two 20-long cells, exactly the cells
Lane.cells derives from the bounds y = 2 (left) and y = 0 (right) with
cell_len 20: equal bound lengths make the right bound the shorter one, so
cell headings come from it and the quads are [s_i, s_i1, l_i1, l_i]. -/
def cellLow : CellRec ℤ :=
  { ring := [(0, 0), (20, 0), (20, 2), (0, 2)], headingVec := (20, 0),
    left_bound := ((0, 2), (20, 2)), right_bound := ((0, 0), (20, 0)) }

/-- Second cell of the straight example lane, spanning x in [20, 40]. -/
def cellHigh : CellRec ℤ :=
  { ring := [(20, 0), (40, 0), (40, 2), (20, 2)], headingVec := (20, 0),
    left_bound := ((20, 2), (40, 2)), right_bound := ((20, 0), (40, 0)) }

/-- The example lane: union ring the full 40 x 2 rectangle, two cells. -/
def laneStraight : LaneRec ℤ :=
  { ring := [(0, 0), (40, 0), (40, 2), (0, 2)], cells := [cellLow, cellHigh] }

/-- A map holding the straight example lane under id 0. -/
def mapStraight : MapState ℤ := { lanes := [(0, laneStraight)] }

/-- Chain lanelet A for the connectivity examples: shares its left-bound and
right-bound endpoints with B. -/
def lltA : LaneletRec ℤ :=
  { id_ := 1, subtype := "", left_bound := [(0, 0), (1, 0)],
    right_bound := [(0, -1), (1, -1)] }

/-- Chain lanelet B, connected to both A and C. -/
def lltB : LaneletRec ℤ :=
  { id_ := 2, subtype := "", left_bound := [(1, 0), (2, 0)],
    right_bound := [(1, -1), (2, -1)] }

/-- Chain lanelet C, connected to B only; it shares no point with A. -/
def lltC : LaneletRec ℤ :=
  { id_ := 3, subtype := "", left_bound := [(2, 0), (3, 0)],
    right_bound := [(2, -1), (3, -1)] }

/-- Branching parent lanelet for the ordering counterexample. -/
def ordA : LaneletRec ℤ :=
  { id_ := 11, subtype := "", left_bound := [(0, 0), (1, 0)],
    right_bound := [(0, -1), (1, -1)] }

/-- First child of ordA: its left bound starts at the left-bound end of
ordA and continues straight. -/
def ordB : LaneletRec ℤ :=
  { id_ := 12, subtype := "", left_bound := [(1, 0), (2, 0)],
    right_bound := [(1, -1), (2, -1)] }

/-- Second child of ordA: its left bound also starts at the left-bound end
of ordA but branches upward. -/
def ordC : LaneletRec ℤ :=
  { id_ := 13, subtype := "", left_bound := [(1, 0), (2, 1)],
    right_bound := [(1, -1), (2, 0)] }

/-- Straight chain lanelets for the ordering witness. -/
def ordD : LaneletRec ℤ :=
  { id_ := 21, subtype := "", left_bound := [(0, 0), (1, 0)],
    right_bound := [(0, -1), (1, -1)] }

/-- Middle lanelet of the ordering witness chain. -/
def ordE : LaneletRec ℤ :=
  { id_ := 22, subtype := "", left_bound := [(1, 0), (2, 0)],
    right_bound := [(1, -1), (2, -1)] }

/-- Last lanelet of the ordering witness chain. -/
def ordF : LaneletRec ℤ :=
  { id_ := 23, subtype := "", left_bound := [(2, 0), (3, 0)],
    right_bound := [(2, -1), (3, -1)] }

/-- A lanelet relation that is not a crosswalk. -/
def relRoad : RelationRec ℤ :=
  { rid := 5, subtype := "road", left_bound := [(0, 1), (10, 1)],
    right_bound := [(0, 0), (10, 0)] }

/-- A crosswalk lanelet relation. -/
def relCross : RelationRec ℤ :=
  { rid := 6, subtype := "crosswalk", left_bound := [(4, -1), (4, 2)],
    right_bound := [(6, -1), (6, 2)] }

/-- A reader state with one stored non-crosswalk lanelet and a cold memo. -/
def readerRoad : ReaderState ℤ := extract_lanelet initReader relRoad

theorem headPt_reverse {R : Type} [LinearOrderedCommRing R] (L : Polyline R) :
    headPt L.reverse = lastPt L := by
  simp [headPt, lastPt, List.head?_reverse]

theorem lastPt_reverse {R : Type} [LinearOrderedCommRing R] (L : Polyline R) :
    lastPt L.reverse = headPt L := by
  simp [headPt, lastPt, List.getLast?_reverse]

/-- C4: the claim states that after align_bounds the bounds of every lanelet
run in the same direction (has_opposing_linestrings is False).  This fails:
the second, both-bounds reversal can reintroduce an opposing orientation.
The amended claim: whenever the second reversal (the cardinal-direction
test on the left-bound start against the right-bound initial direction)
does not fire, the aligned bounds are non-opposing. -/
theorem claim_C4_amended {R : Type} [LinearOrderedCommRing R] (lb rb : Polyline R)
    (h : second_reversal_cond lb (align_phase1 lb rb) = false) :
    has_opposing_linestrings (align_bounds lb rb).1 (align_bounds lb rb).2 = false := by
  unfold align_bounds
  simp only [h, Bool.false_eq_true, if_false]
  unfold align_phase1
  cases hop : has_opposing_linestrings lb rb with
  | false => simp [hop]
  | true =>
    simp only [if_true]
    unfold has_opposing_linestrings at hop ⊢
    rw [headPt_reverse, lastPt_reverse]
    simp only [decide_eq_true_eq] at hop
    simpa using le_of_lt hop

/-- Witness for claim_C4_amended: an already aligned straight lanelet. -/
theorem claim_C4_amended_witness :
    second_reversal_cond [((0 : ℤ), 1), (1, 1)]
      (align_phase1 [((0 : ℤ), 1), (1, 1)] [(0, 0), (1, 0)]) = false ∧
    has_opposing_linestrings
      (align_bounds [((0 : ℤ), 1), (1, 1)] [(0, 0), (1, 0)]).1
      (align_bounds [((0 : ℤ), 1), (1, 1)] [(0, 0), (1, 0)]).2 = false :=
  ⟨by decide, claim_C4_amended [((0 : ℤ), 1), (1, 1)] [(0, 0), (1, 0)] (by decide)⟩

/-- C4 counterexample: left bound (4,1) -> (1,1), right bound (0,0) -> (10,0).
The first phase reverses the right bound (the left head (1,1) is closer to
the right tail (0,0) than to the right head (10,0)); the cardinal test then
sees the left start (4,1) to the right of the reversed right-bound direction
and reverses both bounds, after which the bounds oppose again: align_bounds
leaves has_opposing_linestrings True, contradicting the claimed invariant. -/
theorem claim_C4_counterexample :
    has_opposing_linestrings
      (align_bounds [((4 : ℤ), 1), (1, 1)] [(0, 0), (10, 0)]).1
      (align_bounds [((4 : ℤ), 1), (1, 1)] [(0, 0), (10, 0)]).2 = true := by decide

/-- C9: the claim states drivable_polygon is the union of the non-crosswalk
lanelet polygons and is computed at most once, every later access returning
the cached polygon.  The caching part fails when the union is empty (the
source guards the memo with shapely truthiness, and an empty union is
falsy, so it is recomputed on every access).  Amended claim: the property
always returns the union of the non-crosswalk lanelet polygons; after the
first access it is cached, and a second access returns the same union and
skips recomputation exactly when the union is non-empty. -/
theorem claim_C9_amended {R : Type} [LinearOrderedCommRing R] (s : ReaderState R)
    (h : s.drivable_memo = none) :
    (drivable_polygon_read s).1 = drivableUnion s ∧
    (drivable_polygon_read s).2.1 = true ∧
    (drivable_polygon_read (drivable_polygon_read s).2.2).1 = drivableUnion s ∧
    ((drivable_polygon_read (drivable_polygon_read s).2.2).2.1 = false ↔
      drivableUnion s ≠ []) := by
  have hs1 : drivable_polygon_read s =
      (drivableUnion s, true, { s with drivable_memo := some (drivableUnion s) }) := by
    unfold drivable_polygon_read
    rw [h]
  have hsame : drivableUnion { s with drivable_memo := some (drivableUnion s) } =
      drivableUnion s := rfl
  refine ⟨by rw [hs1], by rw [hs1], ?_, ?_⟩
  · rw [hs1]
    by_cases hu : drivableUnion s = []
    · unfold drivable_polygon_read
      simp only [hu, hsame]
      simp [show drivableUnion { s with drivable_memo := some ([] : List (List (Pt R))) } =
        drivableUnion s from rfl, hu]
    · unfold drivable_polygon_read
      simp [hu]
  · rw [hs1]
    by_cases hu : drivableUnion s = []
    · unfold drivable_polygon_read
      simp only [hu, hsame]
      simp [hu]
    · unfold drivable_polygon_read
      simp [hu]

/-- Witness for claim_C9_amended: a map with one stored road lanelet; its
drivable union is non-empty, so the second access does not recompute. -/
theorem claim_C9_amended_witness :
    (drivable_polygon_read (drivable_polygon_read readerRoad).2.2).2.1 = false :=
  (claim_C9_amended readerRoad rfl).2.2.2.mpr (by decide)

/-- C9 counterexample: on a map with no lanelets the union is empty, hence
falsy, and the second access recomputes it again (the computed flag of the
second read is true), contradicting computed at most once per process
lifetime. -/
theorem claim_C9_counterexample :
    (drivable_polygon_read (drivable_polygon_read (initReader (R := ℤ))).2.2).2.1 = true := by
  decide

section GraphLemmas

variable {α : Type} [DecidableEq α]

theorem mem_nbrsOf {E : List (α × α)} {a b : α} : b ∈ nbrsOf E a ↔ adjRel E a b := by
  unfold nbrsOf adjRel
  rw [List.mem_toFinset, List.mem_filterMap]
  constructor
  · rintro ⟨⟨u, v⟩, he, hfe⟩
    by_cases h1 : u = a
    · subst h1
      rw [if_pos rfl] at hfe
      obtain rfl : v = b := by injection hfe
      exact Or.inl he
    · rw [if_neg h1] at hfe
      by_cases h2 : v = a
      · subst h2
        rw [if_pos rfl] at hfe
        obtain rfl : u = b := by injection hfe
        exact Or.inr he
      · rw [if_neg h2] at hfe
        exact absurd hfe (by simp)
  · rintro (hab | hba)
    · exact ⟨(a, b), hab, by simp⟩
    · by_cases h1 : b = a
      · subst h1
        exact ⟨(b, b), hba, by simp⟩
      · exact ⟨(b, a), hba, by rw [if_neg h1, if_pos rfl]⟩

theorem subset_closeStep (E : List (α × α)) (S : Finset α) : S ⊆ closeStep E S :=
  Finset.subset_union_left

theorem subset_reachN (E : List (α × α)) (n : Nat) (S : Finset α) :
    S ⊆ reachN E n S := by
  induction n with
  | zero => exact subset_refl S
  | succ n ih => exact subset_trans ih (subset_closeStep E (reachN E n S))

theorem reachN_sound (E : List (α × α)) (v : α) :
    ∀ (n : Nat) (b : α), b ∈ reachN E n {v} →
      Relation.ReflTransGen (adjRel E) v b := by
  intro n
  induction n with
  | zero =>
    intro b hb
    rw [reachN, Finset.mem_singleton] at hb
    subst hb
    exact Relation.ReflTransGen.refl
  | succ n ih =>
    intro b hb
    rw [reachN, closeStep, Finset.mem_union] at hb
    rcases hb with hb | hb
    · exact ih b hb
    · rw [Finset.mem_biUnion] at hb
      obtain ⟨a, ha, hba⟩ := hb
      exact Relation.ReflTransGen.tail (ih a ha) (mem_nbrsOf.mp hba)

theorem closed_of_fix (E : List (α × α)) {S : Finset α}
    (hS : closeStep E S = S) :
    ∀ a b, a ∈ S → Relation.ReflTransGen (adjRel E) a b → b ∈ S := by
  intro a b ha h
  induction h with
  | refl => exact ha
  | tail _ hadj ih =>
    rename_i c d hcd
    have hmem : d ∈ closeStep E S :=
      Finset.mem_union_right _ (Finset.mem_biUnion.mpr ⟨c, ih, mem_nbrsOf.mpr hadj⟩)
    rwa [hS] at hmem

theorem reachN_subset_nodes (E : List (α × α)) (v : α) :
    ∀ n, reachN E n {v} ⊆
      insert v ((E.map Prod.fst).toFinset ∪ (E.map Prod.snd).toFinset) := by
  intro n
  induction n with
  | zero =>
    intro b hb
    rw [reachN, Finset.mem_singleton] at hb
    subst hb
    exact Finset.mem_insert_self _ _
  | succ n ih =>
    rw [reachN, closeStep]
    apply Finset.union_subset ih
    intro b hb
    rw [Finset.mem_biUnion] at hb
    obtain ⟨a, _, hba⟩ := hb
    rcases mem_nbrsOf.mp hba with h1 | h2
    · apply Finset.mem_insert_of_mem
      apply Finset.mem_union_right
      rw [List.mem_toFinset]
      exact List.mem_map_of_mem Prod.snd h1
    · apply Finset.mem_insert_of_mem
      apply Finset.mem_union_left
      rw [List.mem_toFinset]
      exact List.mem_map_of_mem Prod.fst h2

theorem reach_fix (E : List (α × α)) (v : α) :
    closeStep E (compOf E v) = compOf E v := by
  have grow : ∀ n : Nat,
      closeStep E (reachN E n {v}) = reachN E n {v} ∨
        n + 1 ≤ (reachN E n {v}).card := by
    intro n
    induction n with
    | zero =>
      right
      rw [reachN, Finset.card_singleton]
    | succ n ih =>
      rcases ih with hfix | hcard
      · left
        show closeStep E (closeStep E (reachN E n {v})) = closeStep E (reachN E n {v})
        rw [hfix, hfix]
      · by_cases hfix : closeStep E (reachN E n {v}) = reachN E n {v}
        · left
          show closeStep E (closeStep E (reachN E n {v})) = closeStep E (reachN E n {v})
          rw [hfix, hfix]
        · right
          have hssub : reachN E n {v} ⊂ closeStep E (reachN E n {v}) :=
            Finset.ssubset_iff_subset_ne.mpr
              ⟨subset_closeStep E (reachN E n {v}), Ne.symm hfix⟩
          have hlt := Finset.card_lt_card hssub
          show n + 2 ≤ (closeStep E (reachN E n {v})).card
          omega
  rcases grow (2 * E.length + 1) with hfix | hcard
  · exact hfix
  · exfalso
    have hb := Finset.card_le_card (reachN_subset_nodes E v (2 * E.length + 1))
    have hub : (insert v ((E.map Prod.fst).toFinset ∪ (E.map Prod.snd).toFinset)).card ≤
        2 * E.length + 1 := by
      have h1 := Finset.card_insert_le v ((E.map Prod.fst).toFinset ∪ (E.map Prod.snd).toFinset)
      have h2 := Finset.card_union_le (E.map Prod.fst).toFinset (E.map Prod.snd).toFinset
      have h3 := List.toFinset_card_le (E.map Prod.fst)
      have h4 := List.toFinset_card_le (E.map Prod.snd)
      rw [List.length_map] at h3 h4
      omega
    omega

theorem reach_complete (E : List (α × α)) (v b : α)
    (h : Relation.ReflTransGen (adjRel E) v b) : b ∈ compOf E v := by
  induction h with
  | refl => exact subset_reachN E _ {v} (Finset.mem_singleton_self v)
  | tail _ hadj ih =>
    rename_i c d hcd
    have hmem : d ∈ closeStep E (compOf E v) :=
      Finset.mem_union_right _ (Finset.mem_biUnion.mpr ⟨c, ih, mem_nbrsOf.mpr hadj⟩)
    rwa [reach_fix] at hmem

omit [DecidableEq α] in
theorem adjRel_symm (E : List (α × α)) : Symmetric (adjRel E) :=
  fun _ _ h => Or.symm h

omit [DecidableEq α] in
theorem rtg_adj_symm (E : List (α × α)) {a b : α}
    (h : Relation.ReflTransGen (adjRel E) a b) :
    Relation.ReflTransGen (adjRel E) b a :=
  Relation.ReflTransGen.symmetric (adjRel_symm E) h

theorem mem_dedupFirstAux :
    ∀ (l : List α) (seen : List α) (x : α),
      x ∈ dedupFirstAux seen l ↔ x ∈ l ∧ x ∉ seen := by
  intro l
  induction l with
  | nil => intro seen x; simp [dedupFirstAux]
  | cons c cs ih =>
    intro seen x
    by_cases hc : c ∈ seen
    · rw [dedupFirstAux, if_pos hc, ih]
      constructor
      · rintro ⟨hx, hns⟩
        exact ⟨List.mem_cons_of_mem c hx, hns⟩
      · rintro ⟨hx, hns⟩
        rcases List.mem_cons.mp hx with rfl | hx1
        · exact absurd hc hns
        · exact ⟨hx1, hns⟩
    · rw [dedupFirstAux, if_neg hc]
      constructor
      · intro hx
        rcases List.mem_cons.mp hx with rfl | hx1
        · exact ⟨List.mem_cons_self _ _, hc⟩
        · rw [ih] at hx1
          refine ⟨List.mem_cons_of_mem c hx1.1, ?_⟩
          intro hseen
          exact hx1.2 (List.mem_cons_of_mem c hseen)
      · rintro ⟨hx, hns⟩
        rcases List.mem_cons.mp hx with rfl | hx1
        · exact List.mem_cons_self _ _
        · by_cases hxc : x = c
          · subst hxc
            exact List.mem_cons_self _ _
          · apply List.mem_cons_of_mem
            rw [ih]
            refine ⟨hx1, ?_⟩
            intro hseen
            rcases List.mem_cons.mp hseen with h | h
            · exact hxc h
            · exact hns h

theorem mem_nodesFromEdges {E : List (α × α)} {u : α} :
    u ∈ nodesFromEdges E ↔ ∃ e ∈ E, e.1 = u ∨ e.2 = u := by
  unfold nodesFromEdges dedupFirst
  rw [mem_dedupFirstAux]
  constructor
  · rintro ⟨hu, -⟩
    obtain ⟨e, he, hmem⟩ := List.mem_flatMap.mp hu
    rcases List.mem_cons.mp hmem with rfl | hu1
    · exact ⟨e, he, Or.inl rfl⟩
    · rcases List.mem_cons.mp hu1 with rfl | hu2
      · exact ⟨e, he, Or.inr rfl⟩
      · cases hu2
  · rintro ⟨e, he, rfl | rfl⟩
    · exact ⟨List.mem_flatMap.mpr ⟨e, he, List.mem_cons_self _ _⟩, by simp⟩
    · exact ⟨List.mem_flatMap.mpr
        ⟨e, he, List.mem_cons_of_mem _ (List.mem_cons_self _ _)⟩, by simp⟩

theorem extractLoop_members_subset (E : List (α × α)) :
    ∀ (fuel : Nat) (nl : List α) (k : Nat) (km : Nat × List α),
      km ∈ extractLoop E fuel nl k → ∀ u ∈ km.2, u ∈ nl := by
  intro fuel
  induction fuel with
  | zero => intro nl k km hkm; simp [extractLoop] at hkm
  | succ fuel ih =>
    intro nl k km hkm
    cases nl with
    | nil => simp [extractLoop] at hkm
    | cons v rest =>
      rw [extractLoop] at hkm
      rcases List.mem_cons.mp hkm with rfl | hkm'
      · intro u hu
        have hu' : u ∈ (v :: rest).filter fun u => decide (u ∈ compOf E v) := hu
        exact List.mem_of_mem_filter hu'
      · intro u hu
        have := ih _ _ _ hkm' u hu
        exact List.mem_cons_of_mem v (List.mem_of_mem_filter this)

theorem extractLoop_mem_comp (E : List (α × α)) :
    ∀ (fuel : Nat) (nl : List α) (k : Nat) (km : Nat × List α),
      km ∈ extractLoop E fuel nl k → ∃ rep, ∀ u ∈ km.2, u ∈ compOf E rep := by
  intro fuel
  induction fuel with
  | zero => intro nl k km hkm; simp [extractLoop] at hkm
  | succ fuel ih =>
    intro nl k km hkm
    cases nl with
    | nil => simp [extractLoop] at hkm
    | cons v rest =>
      rw [extractLoop] at hkm
      rcases List.mem_cons.mp hkm with rfl | hkm'
      · refine ⟨v, ?_⟩
        intro u hu
        have := List.of_mem_filter hu
        exact of_decide_eq_true this
      · exact ih _ _ _ hkm'

theorem extractLoop_pair (E : List (α × α)) :
    ∀ (fuel : Nat) (nl : List α) (k : Nat), nl.length ≤ fuel →
      ∀ a b, a ∈ nl → b ∈ nl → Relation.ReflTransGen (adjRel E) a b →
        ∃ km ∈ extractLoop E fuel nl k, a ∈ km.2 ∧ b ∈ km.2 := by
  intro fuel
  induction fuel with
  | zero =>
    intro nl k hle a b ha _ _
    rw [Nat.le_zero, List.length_eq_zero] at hle
    subst hle
    cases ha
  | succ fuel ih =>
    intro nl k hle a b ha hb hab
    cases nl with
    | nil => cases ha
    | cons v rest =>
      rw [extractLoop]
      by_cases hac : a ∈ compOf E v
      · have hvb : Relation.ReflTransGen (adjRel E) v b :=
          Relation.ReflTransGen.trans (reachN_sound E v _ a hac) hab
        have hbc : b ∈ compOf E v := reach_complete E v b hvb
        refine ⟨(k, (v :: rest).filter fun u => decide (u ∈ compOf E v)),
          List.mem_cons_self _ _, ?_, ?_⟩
        · exact List.mem_filter.mpr ⟨ha, decide_eq_true hac⟩
        · exact List.mem_filter.mpr ⟨hb, decide_eq_true hbc⟩
      · have hbc : b ∉ compOf E v := by
          intro hbc
          apply hac
          exact reach_complete E v a
            (Relation.ReflTransGen.trans (reachN_sound E v _ b hbc) (rtg_adj_symm E hab))
        have hvv : v ∈ compOf E v :=
          subset_reachN E _ {v} (Finset.mem_singleton_self v)
        have hav : a ≠ v := fun h => hac (h ▸ hvv)
        have hbv : b ≠ v := fun h => hbc (h ▸ hvv)
        have ha' : a ∈ rest.filter fun u => !decide (u ∈ compOf E v) := by
          apply List.mem_filter.mpr
          refine ⟨?_, by simp [hac]⟩
          rcases List.mem_cons.mp ha with h | h
          · exact absurd h hav
          · exact h
        have hb' : b ∈ rest.filter fun u => !decide (u ∈ compOf E v) := by
          apply List.mem_filter.mpr
          refine ⟨?_, by simp [hbc]⟩
          rcases List.mem_cons.mp hb with h | h
          · exact absurd h hbv
          · exact h
        have hlen : (rest.filter fun u => !decide (u ∈ compOf E v)).length ≤ fuel := by
          have h1 := List.length_filter_le (fun u => !decide (u ∈ compOf E v)) rest
          simp only [List.length_cons] at hle
          omega
        obtain ⟨km, hkm, hakm, hbkm⟩ := ih _ (k + 1) hlen a b ha' hb' hab
        exact ⟨km, List.mem_cons_of_mem _ hkm, hakm, hbkm⟩

omit [DecidableEq α] in
theorem mem_pairsUpper_sub :
    ∀ (ls : List α) (u w : α), (u, w) ∈ pairsUpper ls → u ∈ ls ∧ w ∈ ls := by
  intro ls
  induction ls with
  | nil => intro u w h; simp [pairsUpper] at h
  | cons x xs ih =>
    intro u w h
    rw [pairsUpper, List.mem_append] at h
    rcases h with h | h
    · obtain ⟨y, hy, heq⟩ := List.mem_map.mp h
      obtain ⟨rfl, rfl⟩ : x = u ∧ y = w := Prod.mk.inj heq
      exact ⟨List.mem_cons_self _ _, List.mem_cons_of_mem _ hy⟩
    · obtain ⟨hu, hw⟩ := ih u w h
      exact ⟨List.mem_cons_of_mem _ hu, List.mem_cons_of_mem _ hw⟩

omit [DecidableEq α] in
theorem pairsUpper_exists :
    ∀ (ls : List α) (a b : α), a ∈ ls → b ∈ ls → a ≠ b →
      (a, b) ∈ pairsUpper ls ∨ (b, a) ∈ pairsUpper ls := by
  intro ls
  induction ls with
  | nil => intro a b ha _ _; cases ha
  | cons x xs ih =>
    intro a b ha hb hne
    rcases List.mem_cons.mp ha with rfl | ha1
    · rcases List.mem_cons.mp hb with rfl | hb1
      · exact absurd rfl hne
      · left
        rw [pairsUpper, List.mem_append]
        exact Or.inl (List.mem_map_of_mem _ hb1)
    · rcases List.mem_cons.mp hb with rfl | hb1
      · right
        rw [pairsUpper, List.mem_append]
        exact Or.inl (List.mem_map_of_mem _ ha1)
      · rcases ih a b ha1 hb1 hne with h | h
        · left
          rw [pairsUpper, List.mem_append]
          exact Or.inr h
        · right
          rw [pairsUpper, List.mem_append]
          exact Or.inr h

omit [DecidableEq α] in
theorem pairsUpper_ne_of_nodup :
    ∀ (ls : List α), ls.Nodup → ∀ u w, (u, w) ∈ pairsUpper ls → u ≠ w := by
  intro ls
  induction ls with
  | nil => intro _ u w h; simp [pairsUpper] at h
  | cons x xs ih =>
    intro hnd u w h
    rw [pairsUpper, List.mem_append] at h
    rcases h with h | h
    · obtain ⟨y, hy, heq⟩ := List.mem_map.mp h
      obtain ⟨rfl, rfl⟩ : x = u ∧ y = w := Prod.mk.inj heq
      intro heq2
      subst heq2
      exact (List.nodup_cons.mp hnd).1 hy
    · exact ih (List.nodup_cons.mp hnd).2 u w h

end GraphLemmas

section ConnLemmas

variable {R : Type} [LinearOrderedCommRing R]

theorem segIntersects_comm (s t : Seg R) : segIntersects s t = segIntersects t s := by
  unfold segIntersects
  dsimp only
  rw [Bool.and_comm]
  rw [show ∀ a b c d e : Bool, (a || b || c || d || e) = (a || d || e || b || c) by
    intro a b c d e
    cases a <;> cases b <;> cases c <;> cases d <;> cases e <;> rfl]

theorem polyIntersects_comm (L1 L2 : Polyline R) :
    polyIntersects L1 L2 = polyIntersects L2 L1 := by
  unfold polyIntersects
  rw [Bool.eq_iff_iff]
  simp only [List.any_eq_true]
  constructor
  · rintro ⟨s, hs, t, ht, hst⟩
    exact ⟨t, ht, s, hs, by rw [segIntersects_comm]; exact hst⟩
  · rintro ⟨t, ht, s, hs, hts⟩
    exact ⟨s, hs, t, ht, by rw [segIntersects_comm]; exact hts⟩

theorem is_connected_comm (l1 l2 : LaneletRec R) :
    is_connected l1 l2 = is_connected l2 l1 := by
  unfold is_connected
  rw [polyIntersects_comm, polyIntersects_comm l1.right_bound]

theorem connRel_of_adj (ls : List (LaneletRec R)) (hnd : ls.Nodup)
    {a b : LaneletRec R} (h : adjRel (laneEdges ls) a b) : connRel ls a b := by
  rcases h with h | h
  · have hp := List.mem_of_mem_filter h
    have hconn := List.of_mem_filter h
    obtain ⟨ha, hb⟩ := mem_pairsUpper_sub ls a b hp
    exact ⟨ha, hb, pairsUpper_ne_of_nodup ls hnd a b hp, Or.inl hconn⟩
  · have hp := List.mem_of_mem_filter h
    have hconn := List.of_mem_filter h
    obtain ⟨hb, ha⟩ := mem_pairsUpper_sub ls b a hp
    exact ⟨ha, hb, (pairsUpper_ne_of_nodup ls hnd b a hp).symm, Or.inr hconn⟩

theorem adj_of_connRel (ls : List (LaneletRec R)) {a b : LaneletRec R}
    (h : connRel ls a b) : adjRel (laneEdges ls) a b := by
  obtain ⟨ha, hb, hne, hconn⟩ := h
  have hcab : is_connected a b = true := by
    rcases hconn with h1 | h1
    · exact h1
    · rw [is_connected_comm]
      exact h1
  rcases pairsUpper_exists ls a b ha hb hne with hp | hp
  · exact Or.inl (List.mem_filter.mpr ⟨hp, hcab⟩)
  · exact Or.inr (List.mem_filter.mpr ⟨hp, by rw [is_connected_comm]; exact hcab⟩)

theorem node_of_adj (ls : List (LaneletRec R)) {a b : LaneletRec R}
    (h : adjRel (laneEdges ls) a b) : a ∈ nodesFromEdges (laneEdges ls) := by
  rcases h with h | h
  · exact mem_nodesFromEdges.mpr ⟨(a, b), h, Or.inl rfl⟩
  · exact mem_nodesFromEdges.mpr ⟨(b, a), h, Or.inr rfl⟩

/-- C2: the claim states that lanelets whose left bounds intersect and whose
right bounds intersect are placed in the same Lane, transitively, and that
two lanelets sharing no boundary points end up in different Lanes.  The
first half holds; the second fails, because connectivity is transitive: a
chain A-B-C puts A and C in the same Lane although A and C share no
boundary point.  Amended claim: lanelets joined by a chain of
boundary-intersecting pairs end up in the same Lane, and lanelets joined by
no such chain are never placed in the same Lane. -/
theorem claim_C2_amended (ls : List (LaneletRec R)) (hnd : ls.Nodup) :
    (∀ a b : LaneletRec R, a ≠ b → Relation.ReflTransGen (connRel ls) a b →
      ∃ km ∈ extract_lanes ls, a ∈ km.2 ∧ b ∈ km.2) ∧
    (∀ a b : LaneletRec R, ¬ Relation.ReflTransGen (connRel ls) a b →
      ∀ km ∈ extract_lanes ls, ¬ (a ∈ km.2 ∧ b ∈ km.2)) := by
  constructor
  · intro a b hne hchain
    have hadj : Relation.ReflTransGen (adjRel (laneEdges ls)) a b :=
      Relation.ReflTransGen.mono (fun u w h => adj_of_connRel ls h) hchain
    have ha : a ∈ nodesFromEdges (laneEdges ls) := by
      rcases Relation.ReflTransGen.cases_head hadj with rfl | ⟨c, hac, _⟩
      · exact absurd rfl hne
      · exact node_of_adj ls hac
    have hb : b ∈ nodesFromEdges (laneEdges ls) := by
      rcases Relation.ReflTransGen.cases_tail hadj with rfl | ⟨c, _, hcb⟩
      · exact absurd rfl hne.symm
      · rcases hcb with h | h
        · exact mem_nodesFromEdges.mpr ⟨(c, b), h, Or.inr rfl⟩
        · exact mem_nodesFromEdges.mpr ⟨(b, c), h, Or.inl rfl⟩
    exact extractLoop_pair (laneEdges ls) (nodesFromEdges (laneEdges ls)).length
      (nodesFromEdges (laneEdges ls)) 0 le_rfl a b ha hb hadj
  · intro a b hnochain km hkm ⟨hakm, hbkm⟩
    obtain ⟨rep, hrep⟩ := extractLoop_mem_comp (laneEdges ls) _ _ _ km hkm
    have hra := reachN_sound (laneEdges ls) rep _ a (hrep a hakm)
    have hrb := reachN_sound (laneEdges ls) rep _ b (hrep b hbkm)
    have hab : Relation.ReflTransGen (adjRel (laneEdges ls)) a b :=
      Relation.ReflTransGen.trans (rtg_adj_symm _ hra) hrb
    exact hnochain
      (Relation.ReflTransGen.mono (fun u w h => connRel_of_adj ls hnd h) hab)

/-- Witness for claim_C2_amended: the directly connected chain lanelets A
and B land in the same extracted lane. -/
theorem claim_C2_amended_witness :
    ∃ km ∈ extract_lanes [lltA, lltB], lltA ∈ km.2 ∧ lltB ∈ km.2 :=
  (claim_C2_amended [lltA, lltB] (by decide)).1 lltA lltB (by decide)
    (Relation.ReflTransGen.single
      ⟨by decide, by decide, by decide, Or.inl (by decide)⟩)

/-- C2 counterexample: in the chain A-B-C the lanelets A and C share no
boundary point (none of their bounds intersect), yet extract_lanes places
all three in the same lane, refuting the claim that two lanelets sharing no
boundary points end up in different Lanes. -/
theorem claim_C2_counterexample :
    extract_lanes [lltA, lltB, lltC] = [(0, [lltA, lltB, lltC])] ∧
    polyIntersects lltA.left_bound lltC.left_bound = false ∧
    polyIntersects lltA.right_bound lltC.right_bound = false ∧
    polyIntersects lltA.left_bound lltC.right_bound = false ∧
    polyIntersects lltA.right_bound lltC.left_bound = false := by decide

end ConnLemmas

theorem mem_assocSet {β : Type} (l : List (Nat × β)) (k : Nat) (v : β)
    (kv : Nat × β) (h : kv ∈ assocSet l k v) : kv ∈ l ∨ kv.2 = v := by
  unfold assocSet at h
  split_ifs at h with hany
  · obtain ⟨kv0, hkv0, heq⟩ := List.mem_map.mp h
    by_cases hk : kv0.1 = k
    · rw [if_pos hk] at heq
      right
      rw [← heq]
    · rw [if_neg hk] at heq
      left
      rw [← heq]
      exact hkv0
  · rcases List.mem_append.mp h with h1 | h1
    · exact Or.inl h1
    · right
      rcases List.mem_cons.mp h1 with rfl | h2
      · rfl
      · cases h2

theorem assocSet_key_mem {β : Type} (l : List (Nat × β)) (k : Nat) (v : β) :
    ∃ kv ∈ assocSet l k v, kv.1 = k := by
  unfold assocSet
  split_ifs with hany
  · obtain ⟨kv0, hkv0, hk0⟩ := List.any_eq_true.mp hany
    refine ⟨(k, v), ?_, rfl⟩
    exact List.mem_map.mpr ⟨kv0, hkv0, if_pos (of_decide_eq_true hk0)⟩
  · exact ⟨(k, v), List.mem_append_right _ (List.mem_cons_self _ _), rfl⟩

theorem assocSet_key_preserved {β : Type} (l : List (Nat × β)) (k : Nat) (v : β)
    (k' : Nat) (h : ∃ kv ∈ l, kv.1 = k') : ∃ kv ∈ assocSet l k v, kv.1 = k' := by
  obtain ⟨kv0, hm, hk⟩ := h
  unfold assocSet
  split_ifs with hany
  · by_cases hke : kv0.1 = k
    · refine ⟨(k, v), ?_, by rw [← hke, hk]⟩
      exact List.mem_map.mpr ⟨kv0, hm, if_pos hke⟩
    · refine ⟨kv0, ?_, hk⟩
      exact List.mem_map.mpr ⟨kv0, hm, if_neg hke⟩
  · exact ⟨kv0, List.mem_append_left _ hm, hk⟩

section ReaderLemmas

variable {R : Type} [LinearOrderedCommRing R]

theorem fold_lanelets_inv (rs : List (RelationRec R)) :
    ∀ s : ReaderState R, (∀ kv ∈ s.lanelets, kv.2.subtype ≠ "crosswalk") →
      ∀ kv ∈ (rs.foldl extract_lanelet s).lanelets, kv.2.subtype ≠ "crosswalk" := by
  induction rs with
  | nil => intro s hs; exact hs
  | cons r rs ih =>
    intro s hs
    rw [List.foldl_cons]
    apply ih
    intro kv hkv
    unfold extract_lanelet at hkv
    split_ifs at hkv with hcw
    · exact hs kv hkv
    · rcases mem_assocSet _ _ _ kv hkv with h1 | h1
      · exact hs kv h1
      · rw [h1]
        exact hcw

theorem fold_cross_mono (rs : List (RelationRec R)) :
    ∀ (s : ReaderState R) (k' : Nat), (∃ kv ∈ s.crosswalks, kv.1 = k') →
      ∃ kv ∈ (rs.foldl extract_lanelet s).crosswalks, kv.1 = k' := by
  induction rs with
  | nil => intro s k' h; exact h
  | cons r rs ih =>
    intro s k' h
    rw [List.foldl_cons]
    apply ih
    unfold extract_lanelet
    split_ifs with hcw
    · exact assocSet_key_preserved _ _ _ _ h
    · exact h

theorem fold_cross_keys (rs : List (RelationRec R)) :
    ∀ (s : ReaderState R) (r : RelationRec R), r ∈ rs → r.subtype = "crosswalk" →
      ∃ kv ∈ (rs.foldl extract_lanelet s).crosswalks, kv.1 = r.rid := by
  induction rs with
  | nil => intro s r hr; cases hr
  | cons r0 rs ih =>
    intro s r hr hcw
    rcases List.mem_cons.mp hr with rfl | hr1
    · rw [List.foldl_cons]
      apply fold_cross_mono
      unfold extract_lanelet
      rw [if_pos hcw]
      exact assocSet_key_mem _ _ _
    · rw [List.foldl_cons]
      exact ih _ r hr1 hcw

theorem extract_lanes_members (ls : List (LaneletRec R)) :
    ∀ km ∈ extract_lanes ls, ∀ l ∈ km.2, l ∈ ls := by
  intro km hkm l hl
  unfold extract_lanes at hkm
  have hnode := extractLoop_members_subset (laneEdges ls) _ _ _ km hkm l hl
  obtain ⟨e, he, hend⟩ := mem_nodesFromEdges.mp hnode
  have hp := List.mem_of_mem_filter he
  obtain ⟨h1, h2⟩ := mem_pairsUpper_sub ls e.1 e.2 (by
    rcases e with ⟨u, w⟩
    exact hp)
  rcases hend with rfl | rfl
  · exact h1
  · exact h2

/-- C10: crosswalk lanelet relations are stored only in the crosswalks
dictionary, never in the lanelets dictionary, and are therefore never
merged into any Lane built by extract_lanes (so no lane returned by match
can be a crosswalk, since match only returns ids of the lanes collection). -/
theorem claim_C10 {R : Type} [LinearOrderedCommRing R] (rs : List (RelationRec R)) :
    (∀ kv ∈ (rs.foldl extract_lanelet initReader).lanelets,
      kv.2.subtype ≠ "crosswalk") ∧
    (∀ r ∈ rs, r.subtype = "crosswalk" →
      ∃ kv ∈ (rs.foldl extract_lanelet initReader).crosswalks, kv.1 = r.rid) ∧
    (∀ km ∈ extract_lanes
        ((rs.foldl extract_lanelet initReader).lanelets.map Prod.snd),
      ∀ l ∈ km.2, l.subtype ≠ "crosswalk") := by
  refine ⟨?_, ?_, ?_⟩
  · apply fold_lanelets_inv
    intro kv hkv
    cases hkv
  · intro r hr hcw
    exact fold_cross_keys rs initReader r hr hcw
  · intro km hkm l hl
    have hmem := extract_lanes_members _ km hkm l hl
    obtain ⟨kv, hkv, rfl⟩ := List.mem_map.mp hmem
    exact fold_lanelets_inv rs initReader (by intro kv hkv; cases hkv) kv hkv

/-- Witness for claim_C10: processing a road relation and a crosswalk
relation stores the crosswalk under its id in the crosswalks dictionary. -/
theorem claim_C10_witness :
    ∃ kv ∈ (([relRoad, relCross] : List (RelationRec ℤ)).foldl extract_lanelet
      initReader).crosswalks, kv.1 = relCross.rid :=
  (claim_C10 [relRoad, relCross]).2.1 relCross (by decide) rfl

end ReaderLemmas

section ChainLemmas

variable {α : Type} [DecidableEq α]

omit [DecidableEq α] in
theorem zip_tail_length (cs : List α) : (cs.zip cs.tail).length = cs.length - 1 := by
  rw [List.length_zip, List.length_tail]
  exact min_eq_right (Nat.sub_le _ _)

omit [DecidableEq α] in
theorem mem_zip_tail {cs : List α} {u v : α} :
    (u, v) ∈ cs.zip cs.tail ↔
      ∃ i, ∃ h : i + 1 < cs.length, cs[i] = u ∧ cs[i + 1] = v := by
  constructor
  · intro hm
    obtain ⟨i, hi, heq⟩ := List.mem_iff_getElem.mp hm
    have hlen : i + 1 < cs.length := by
      have h2 := hi
      rw [zip_tail_length] at h2
      omega
    rw [List.getElem_zip, List.getElem_tail, Prod.mk.injEq] at heq
    exact ⟨i, hlen, heq.1, heq.2⟩
  · rintro ⟨i, h, rfl, rfl⟩
    apply List.mem_iff_getElem.mpr
    refine ⟨i, by rw [zip_tail_length]; omega, ?_⟩
    rw [List.getElem_zip, List.getElem_tail]

theorem chain_indeg_head (cs : List α) (hnd : cs.Nodup) (h0 : 0 < cs.length)
    (out : List α) : indegRem (cs.zip cs.tail) out cs[0] = 0 := by
  unfold indegRem
  rw [List.length_eq_zero, List.filter_eq_nil_iff]
  rintro ⟨u, v⟩ hm hp
  simp only [decide_eq_true_eq] at hp
  obtain ⟨hv, -⟩ := hp
  obtain ⟨i, hi, h1, h2⟩ := mem_zip_tail.mp hm
  have hic : cs[i + 1] = cs[0] := by rw [h2, hv]
  have := hnd.getElem_inj_iff.mp hic
  omega

theorem chain_indeg_done (cs : List α) (hnd : cs.Nodup) (i : Nat)
    (h : i + 1 < cs.length) (out : List α) (hin : cs[i] ∈ out) :
    indegRem (cs.zip cs.tail) out cs[i + 1] = 0 := by
  unfold indegRem
  rw [List.length_eq_zero, List.filter_eq_nil_iff]
  rintro ⟨u, v⟩ hm hp
  simp only [decide_eq_true_eq] at hp
  obtain ⟨hv, hu⟩ := hp
  obtain ⟨j, hj, h1, h2⟩ := mem_zip_tail.mp hm
  have hji : j = i := by
    have hjc : cs[j + 1] = cs[i + 1] := by rw [h2, hv]
    have := hnd.getElem_inj_iff.mp hjc
    omega
  subst hji
  rw [h1] at hin
  exact hu hin

theorem chain_indeg_pending (cs : List α) (i : Nat)
    (h : i + 1 < cs.length) (out : List α) (hout : cs[i] ∉ out) :
    indegRem (cs.zip cs.tail) out cs[i + 1] ≠ 0 := by
  unfold indegRem
  intro hz
  rw [List.length_eq_zero, List.filter_eq_nil_iff] at hz
  have hm : (cs[i], cs[i + 1]) ∈ cs.zip cs.tail := mem_zip_tail.mpr ⟨i, h, rfl, rfl⟩
  have hq := hz _ hm
  simp only [decide_eq_true_eq] at hq
  exact hq ⟨by trivial, hout⟩

theorem filterMap_eq_singleton {β γ : Type} {l : List β} {f : β → Option γ}
    (j : Nat) (hj : j < l.length) {y : γ}
    (hothers : ∀ i, (hi : i < l.length) → i ≠ j → f l[i] = none)
    (hy : f l[j] = some y) : l.filterMap f = [y] := by
  have h1 : (l.take j).filterMap f = [] := by
    rw [List.filterMap_eq_nil_iff]
    intro a ha
    obtain ⟨i, hi, hget⟩ := List.mem_iff_getElem.mp ha
    have hij : i < j := by
      have h3 := hi
      rw [List.length_take] at h3
      omega
    rw [← hget, List.getElem_take]
    exact hothers i (by omega) (by omega)
  have h2 : (l.drop (j + 1)).filterMap f = [] := by
    rw [List.filterMap_eq_nil_iff]
    intro a ha
    obtain ⟨i, hi, hget⟩ := List.mem_iff_getElem.mp ha
    have hib : j + 1 + i < l.length := by
      have h3 := hi
      rw [List.length_drop] at h3
      omega
    rw [← hget, List.getElem_drop]
    exact hothers (j + 1 + i) hib (by omega)
  calc l.filterMap f = (l.take j ++ l.drop j).filterMap f := by
        rw [List.take_append_drop]
    _ = (l.take j).filterMap f ++ (l.drop j).filterMap f :=
        List.filterMap_append _ _ _
    _ = [y] := by
        rw [h1, List.drop_eq_getElem_cons hj, List.filterMap_cons, hy, h2]
        rfl

theorem chain_freed_mid (cs : List α) (hnd : cs.Nodup) (j : Nat)
    (hj : j + 1 < cs.length) (out1 : List α) (hmem : cs[j] ∈ out1) :
    ((cs.zip cs.tail).filterMap fun e =>
        if e.1 = cs[j] ∧ indegRem (cs.zip cs.tail) out1 e.2 = 0 then some e.2
        else none) = [cs[j + 1]] := by
  refine filterMap_eq_singleton j (by rw [zip_tail_length]; omega) ?_ ?_
  · intro i hi hne
    have hi1 : i + 1 < cs.length := by
      have h3 := hi
      rw [zip_tail_length] at h3
      omega
    simp only [List.getElem_zip, List.getElem_tail]
    rw [if_neg]
    rintro ⟨he, -⟩
    exact hne (hnd.getElem_inj_iff.mp he)
  · simp only [List.getElem_zip, List.getElem_tail]
    rw [if_pos ⟨by trivial, chain_indeg_done cs hnd j hj out1 hmem⟩]

theorem chain_freed_last (cs : List α) (hnd : cs.Nodup) (j : Nat)
    (hj : j + 1 = cs.length) (out1 : List α) :
    ((cs.zip cs.tail).filterMap fun e =>
        if e.1 = cs[j] ∧ indegRem (cs.zip cs.tail) out1 e.2 = 0 then some e.2
        else none) = [] := by
  rw [List.filterMap_eq_nil_iff]
  rintro ⟨u, v⟩ hm
  obtain ⟨i, hi, h1, h2⟩ := mem_zip_tail.mp hm
  rw [if_neg]
  rintro ⟨he, -⟩
  have hic : cs[i] = cs[j] := h1.trans he
  have := hnd.getElem_inj_iff.mp hic
  omega

theorem kahnAux_nil_stack (E : List (α × α)) (fuel : Nat) (out : List α) :
    kahnAux E fuel [] out = out := by
  cases fuel with
  | zero => rfl
  | succ f => rfl

theorem kahnAux_step (E : List (α × α)) (fuel : Nat) (b : α) (out : List α) :
    kahnAux E (fuel + 1) [b] out =
      kahnAux E fuel
        (E.filterMap fun e =>
          if e.1 = b ∧ indegRem E (out ++ [b]) e.2 = 0 then some e.2 else none)
        (out ++ [b]) := by
  rw [kahnAux]
  simp only [List.getLast?_singleton, List.dropLast_single, List.nil_append]

theorem kahnAux_chain (cs : List α) (hnd : cs.Nodup) :
    ∀ (fuel j : Nat) (hj : j < cs.length), cs.length - j ≤ fuel →
      kahnAux (cs.zip cs.tail) fuel [cs[j]] (cs.take j) = cs := by
  intro fuel
  induction fuel with
  | zero => intro j hj hf; omega
  | succ fuel ih =>
    intro j hj hf
    rw [kahnAux_step]
    have htake : cs.take j ++ [cs[j]] = cs.take (j + 1) := by
      rw [← List.take_concat_get cs j hj, List.concat_eq_append]
    rw [htake]
    by_cases hnext : j + 1 < cs.length
    · rw [chain_freed_mid cs hnd j hnext (cs.take (j + 1)) (by
        rw [← htake]
        exact List.mem_append_right _ (List.mem_singleton_self _))]
      exact ih (j + 1) hnext (by omega)
    · have hj1 : j + 1 = cs.length := by omega
      rw [chain_freed_last cs hnd j hj1 (cs.take (j + 1))]
      rw [kahnAux_nil_stack]
      rw [hj1, List.take_length]

theorem chain_stack0 (cs : List α) (hnd : cs.Nodup) (h2 : 2 ≤ cs.length) :
    (cs.filter fun v => indegRem (cs.zip cs.tail) [] v = 0) = [cs[0]] := by
  obtain ⟨a, rest, rfl⟩ : ∃ a rest, cs = a :: rest := by
    cases cs with
    | nil => simp at h2
    | cons a rest => exact ⟨a, rest, rfl⟩
  rw [List.filter_cons]
  have hhead := chain_indeg_head (a :: rest) hnd (by simp) []
  simp only [List.getElem_cons_zero] at hhead
  rw [if_pos (decide_eq_true hhead)]
  have hrest : List.filter
      (fun v => indegRem ((a :: rest).zip (a :: rest).tail) [] v = 0) rest
      = [] := by
    rw [List.filter_eq_nil_iff]
    intro x hx
    obtain ⟨i, hi, rfl⟩ := List.mem_iff_getElem.mp hx
    simp only [decide_eq_true_eq]
    have hnz := chain_indeg_pending (a :: rest) i
      (by simp only [List.length_cons]; omega) [] (List.not_mem_nil _)
    rw [List.getElem_cons_succ] at hnz
    exact hnz
  rw [hrest]
  simp only [List.getElem_cons_zero]

theorem dedup_chain_aux : ∀ (t : List α) (b : α) (seen : List α),
    (b :: t).Nodup → b ∈ seen → (∀ x ∈ t, x ∉ seen) →
    dedupFirstAux seen (((b :: t).zip t).flatMap fun e => [e.1, e.2]) = t := by
  intro t
  induction t with
  | nil =>
    intro b seen _ _ _
    rfl
  | cons x t ih =>
    intro b seen hnd hb hfresh
    simp only [List.zip_cons_cons, List.flatMap_cons, List.cons_append,
      List.nil_append]
    rw [dedupFirstAux, if_pos hb]
    rw [dedupFirstAux, if_neg (hfresh x (List.mem_cons_self x t))]
    congr 1
    refine ih x (x :: seen) hnd.of_cons (List.mem_cons_self x seen) ?_
    intro y hy hmem
    rcases List.mem_cons.mp hmem with rfl | hys
    · exact (List.nodup_cons.mp hnd.of_cons).1 hy
    · exact hfresh y (List.mem_cons_of_mem x hy) hys

theorem chain_nodes (cs : List α) (hnd : cs.Nodup) (h2 : 2 ≤ cs.length) :
    nodesFromEdges (cs.zip cs.tail) = cs := by
  obtain ⟨a, b, t, rfl⟩ : ∃ a b t, cs = a :: b :: t := by
    cases cs with
    | nil => simp at h2
    | cons a c1 =>
      cases c1 with
      | nil => simp at h2
      | cons b t => exact ⟨a, b, t, rfl⟩
  unfold nodesFromEdges dedupFirst
  simp only [List.tail_cons, List.zip_cons_cons, List.flatMap_cons,
    List.cons_append, List.nil_append]
  rw [dedupFirstAux, if_neg (List.not_mem_nil a)]
  rw [dedupFirstAux, if_neg (by
    intro hmem
    have hba : b = a := List.mem_singleton.mp hmem
    refine (List.nodup_cons.mp hnd).1 ?_
    rw [← hba]
    exact List.mem_cons_self b t)]
  congr 2
  refine dedup_chain_aux t b [b, a] hnd.of_cons (List.mem_cons_self b [a]) ?_
  intro y hy hmem
  rcases List.mem_cons.mp hmem with rfl | hmem1
  · exact (List.nodup_cons.mp hnd.of_cons).1 hy
  · have hya : y = a := List.mem_singleton.mp hmem1
    refine (List.nodup_cons.mp hnd).1 ?_
    rw [← hya]
    exact List.mem_cons_of_mem b hy

theorem kahnSort_chain (cs : List α) (hnd : cs.Nodup) (h2 : 2 ≤ cs.length) :
    kahnSort (cs.zip cs.tail) = cs := by
  show kahnAux (cs.zip cs.tail)
      ((nodesFromEdges (cs.zip cs.tail)).length + 1)
      ((nodesFromEdges (cs.zip cs.tail)).filter fun v =>
        indegRem (cs.zip cs.tail) [] v = 0) [] = cs
  rw [chain_nodes cs hnd h2, chain_stack0 cs hnd h2]
  have hrun := kahnAux_chain cs hnd (cs.length + 1) 0 (by omega) (by omega)
  simpa using hrun

end ChainLemmas

theorem getOrder_true {R : Type} [LinearOrderedCommRing R]
    {n1 n2 : LaneletRec R} (h : getOrder n1 n2 = some true) :
    leftEndPt n1 = leftStartPt n2 := by
  unfold getOrder at h
  by_cases h1 : (!polyIntersects n1.left_bound n2.left_bound) = true
  · rw [if_pos h1] at h
    exact absurd h (by simp)
  · rw [if_neg h1] at h
    by_cases h2 : (polyOnlyInterAt n1.left_bound n2.left_bound (leftEndPt n1) &&
        decide (leftEndPt n1 = leftStartPt n2)) = true
    · rw [Bool.and_eq_true] at h2
      exact of_decide_eq_true h2.2
    · rw [if_neg h2] at h
      by_cases h3 : (polyOnlyInterAt n1.left_bound n2.left_bound
          (leftStartPt n1) && decide (leftStartPt n1 = leftEndPt n2)) = true
      · rw [if_pos h3] at h
        exact absurd h (by simp)
      · rw [if_neg h3] at h
        exact absurd h (by simp)

theorem getOrder_false {R : Type} [LinearOrderedCommRing R]
    {n1 n2 : LaneletRec R} (h : getOrder n1 n2 = some false) :
    leftStartPt n1 = leftEndPt n2 := by
  unfold getOrder at h
  by_cases h1 : (!polyIntersects n1.left_bound n2.left_bound) = true
  · rw [if_pos h1] at h
    exact absurd h (by simp)
  · rw [if_neg h1] at h
    by_cases h2 : (polyOnlyInterAt n1.left_bound n2.left_bound (leftEndPt n1) &&
        decide (leftEndPt n1 = leftStartPt n2)) = true
    · rw [if_pos h2] at h
      exact absurd h (by simp)
    · rw [if_neg h2] at h
      by_cases h3 : (polyOnlyInterAt n1.left_bound n2.left_bound
          (leftStartPt n1) && decide (leftStartPt n1 = leftEndPt n2)) = true
      · rw [Bool.and_eq_true] at h3
        exact of_decide_eq_true h3.2
      · rw [if_neg h3] at h
        exact absurd h (by simp)

theorem orderEdges_coincide {R : Type} [LinearOrderedCommRing R]
    (ls : List (LaneletRec R)) {u v : LaneletRec R}
    (h : (u, v) ∈ orderEdges ls) : leftEndPt u = leftStartPt v := by
  unfold orderEdges at h
  obtain ⟨⟨e1, e2⟩, he, hmap⟩ := List.mem_filterMap.mp h
  cases hb : getOrder e1 e2 with
  | none => rw [hb] at hmap; simp at hmap
  | some b =>
    rw [hb, Option.map_some'] at hmap
    cases b with
    | true =>
      rw [if_pos rfl] at hmap
      injection hmap with hpair
      rw [Prod.mk.injEq] at hpair
      obtain ⟨rfl, rfl⟩ := hpair
      exact getOrder_true hb
    | false =>
      rw [if_neg (by simp)] at hmap
      injection hmap with hpair
      rw [Prod.mk.injEq] at hpair
      obtain ⟨rfl, rfl⟩ := hpair
      exact (getOrder_false hb).symm

/-- C7: the lanelets of a lane are stored in the order produced by
nx.topological_sort on the parent/child graph of align_lanelets.  When that
graph is a simple chain cs (each lanelet has at most one parent and one
child and the directed edges are exactly consecutive pairs of cs), the
stored order is exactly cs and each lanelet's left-bound end point
coincides with the next lanelet's left-bound start point.  For branching
graphs a topological order can place non-adjacent lanelets next to each
other, so the consecutive-coincidence reading of the claim fails there
(see the counterexample). -/
theorem claim_C7_amended {R : Type} [LinearOrderedCommRing R]
    (ls cs : List (LaneletRec R)) (hnd : cs.Nodup) (hlen : 2 ≤ cs.length)
    (hE : orderEdges ls = cs.zip cs.tail) :
    lanelets_order ls = cs ∧
    ∀ i, (h : i + 1 < cs.length) → leftEndPt cs[i] = leftStartPt cs[i + 1] := by
  constructor
  · unfold lanelets_order
    rw [hE]
    exact kahnSort_chain cs hnd hlen
  · intro i h
    apply orderEdges_coincide ls
    rw [hE]
    exact mem_zip_tail.mpr ⟨i, h, rfl, rfl⟩

/-- Witness for claim_C7_amended: a three-lanelet straight chain is kept in
chain order by lanelets_order. -/
theorem claim_C7_amended_witness :
    lanelets_order ([ordD, ordE, ordF] : List (LaneletRec ℤ)) =
      [ordD, ordE, ordF] :=
  (claim_C7_amended [ordD, ordE, ordF] [ordD, ordE, ordF]
    (by decide) (by decide) (by decide)).1

/-- Counterexample to the unamended C7: with a branching parent (ordA is
parent of both ordB and ordC) the topological order [ordA, ordC, ordB]
places ordC directly before ordB although ordC's left-bound end point does
not coincide with ordB's left-bound start point. -/
theorem claim_C7_counterexample :
    lanelets_order ([ordA, ordB, ordC] : List (LaneletRec ℤ)) =
      [ordA, ordC, ordB] ∧
    ¬ leftEndPt (ordC : LaneletRec ℤ) = leftStartPt (ordB : LaneletRec ℤ) := by
  decide

theorem cumsumFromR_length : ∀ (ds : List ℝ) (acc : ℝ),
    (cumsumFromR acc ds).length = ds.length := by
  intro ds
  induction ds with
  | nil => intro acc; rfl
  | cons d ds ih => intro acc; simp [cumsumFromR, ih]

theorem cumsumFromR_getElem? : ∀ (ds : List ℝ) (acc : ℝ) (i : Nat), i < ds.length →
    (cumsumFromR acc ds)[i]? = some (acc + (ds.take (i + 1)).sum) := by
  intro ds
  induction ds with
  | nil => intro acc i h; simp at h
  | cons d ds ih =>
    intro acc i h
    cases i with
    | zero =>
      simp only [cumsumFromR, List.getElem?_cons_zero, List.take, List.sum_cons]
      rw [Option.some_inj]
      simp
    | succ i' =>
      simp only [cumsumFromR, List.getElem?_cons_succ]
      rw [ih (acc + d) i' (by simpa using h)]
      rw [Option.some_inj]
      simp only [List.take, List.sum_cons]
      ring

theorem npDupLast_length {β : Type} (xs : List β) (h : xs ≠ []) :
    (npDupLast xs).length = xs.length + 1 := by
  unfold npDupLast
  cases hgl : xs.getLast? with
  | none => exact absurd (List.getLast?_eq_none_iff.mp hgl) h
  | some a =>
    have hlen : 1 ≤ xs.length := List.length_pos.mpr h
    simp only [List.length_append, List.length_dropLast, List.length_cons,
      List.length_nil]
    omega

theorem npDupLast_getElem? {β : Type} (xs : List β) (hne : xs ≠ []) (i : Nat)
    (hi : i ≤ xs.length) :
    (npDupLast xs)[i]? = xs[min i (xs.length - 1)]? := by
  have hlen : 1 ≤ xs.length := List.length_pos.mpr hne
  unfold npDupLast
  cases hgl : xs.getLast? with
  | none => exact absurd (List.getLast?_eq_none_iff.mp hgl) hne
  | some a =>
    rw [List.getElem?_append]
    by_cases hcase : i < xs.length - 1
    · rw [if_pos (by simp [List.length_dropLast]; omega)]
      rw [min_eq_left (by omega)]
      rw [List.getElem?_eq_getElem (by simp [List.length_dropLast]; omega)]
      rw [List.getElem_dropLast]
      rw [List.getElem?_eq_getElem (by omega)]
    · rw [if_neg (by simp [List.length_dropLast]; omega)]
      have hmin : min i (xs.length - 1) = xs.length - 1 := by omega
      rw [hmin]
      have hlast : xs[xs.length - 1]? = some a := by
        rw [← List.getLast?_eq_getElem?]
        exact hgl
      rw [hlast, List.length_dropLast]
      have : i - (xs.length - 1) = 0 ∨ i - (xs.length - 1) = 1 := by omega
      rcases this with h0 | h1
      · rw [h0]; rfl
      · rw [h1]; rfl

theorem seg_lengths_length (pts : List (ℝ × ℝ)) :
    (seg_lengths pts).length = pts.length - 1 := by
  unfold seg_lengths
  simp [List.length_zip]

/-- C8: the claim states the heading and cumulative arc-length arrays have
one entry per resampled point (true) and that entry i of the cumulative
array is the summed lengths of segments 0..i-1, with first entry 0.  The
content part fails: np.cumsum produces no leading zero, so entry i is the
summed lengths of segments 0..i (the first entry is the first segment
length), and np.insert(cumdist, -1, cumdist[-1]) duplicates the total into
the last two entries.  Amended claim: both arrays have one entry per
resampled point, and cumulative entry i equals the sum of the first
min(i + 1, n - 1) segment lengths, so the first entry is the first segment
length and the last two entries both equal the full polyline length. -/
theorem claim_C8_amended (pts : List (ℝ × ℝ)) (h2 : 2 ≤ pts.length) :
    (spline_heading_vecs pts).length = pts.length ∧
    (spline_cumdist pts).length = pts.length ∧
    ∀ i, i < pts.length → (spline_cumdist pts)[i]? =
      some (((seg_lengths pts).take (min (i + 1) (pts.length - 1))).sum) := by
  have hzlen : (pts.zip pts.tail).length = pts.length - 1 := by
    simp [List.length_zip]
  have hslen : (seg_lengths pts).length = pts.length - 1 := seg_lengths_length pts
  have hcs : (cumsumFromR 0 (seg_lengths pts)).length = pts.length - 1 := by
    rw [cumsumFromR_length, hslen]
  have hcsne : cumsumFromR 0 (seg_lengths pts) ≠ [] := by
    intro hnil
    rw [hnil] at hcs
    simp at hcs
    omega
  refine ⟨?_, ?_, ?_⟩
  · unfold spline_heading_vecs
    rw [npDupLast_length _ (by
      intro hnil
      have := congrArg List.length hnil
      simp [List.length_zip] at this
      omega)]
    simp only [List.length_map]
    omega
  · unfold spline_cumdist
    rw [npDupLast_length _ hcsne, hcs]
    omega
  · intro i hi
    unfold spline_cumdist
    rw [npDupLast_getElem? _ hcsne i (by omega)]
    rw [hcs]
    have hidx : min i (pts.length - 1 - 1) < (seg_lengths pts).length := by
      rw [hslen]; omega
    rw [cumsumFromR_getElem? _ 0 _ hidx]
    rw [Option.some_inj, zero_add]
    have : min i (pts.length - 1 - 1) + 1 = min (i + 1) (pts.length - 1) := by omega
    rw [this]

/-- Witness for claim_C8_amended: the three-point resampled polyline
(0,0), (1,0), (2,0). -/
theorem claim_C8_amended_witness :
    (spline_heading_vecs [((0 : ℝ), 0), (1, 0), (2, 0)]).length =
      ([((0 : ℝ), 0), (1, 0), (2, 0)] : List (ℝ × ℝ)).length ∧
    (spline_cumdist [((0 : ℝ), 0), (1, 0), (2, 0)]).length =
      ([((0 : ℝ), 0), (1, 0), (2, 0)] : List (ℝ × ℝ)).length ∧
    ∀ i, i < ([((0 : ℝ), 0), (1, 0), (2, 0)] : List (ℝ × ℝ)).length →
      (spline_cumdist [((0 : ℝ), 0), (1, 0), (2, 0)])[i]? =
        some (((seg_lengths [((0 : ℝ), 0), (1, 0), (2, 0)]).take
          (min (i + 1) (([((0 : ℝ), 0), (1, 0), (2, 0)] : List (ℝ × ℝ)).length - 1))).sum) :=
  claim_C8_amended [((0 : ℝ), 0), (1, 0), (2, 0)] (by norm_num)

/-- C8 counterexample: for the evenly spaced resampled points (0,0), (1,0),
(2,0) the cumulative array is [1, 2, 2]: its first entry is the first
segment length 1, not 0, refuting the claimed indexing (entry i = sum of
segments 0..i-1 with first entry 0). -/
theorem claim_C8_counterexample :
    spline_cumdist [((0 : ℝ), 0), (1, 0), (2, 0)] = [1, 2, 2] ∧
    (spline_cumdist [((0 : ℝ), 0), (1, 0), (2, 0)])[0]? = some 1 ∧ (1 : ℝ) ≠ 0 := by
  have h1 : seg_lengths [((0 : ℝ), 0), (1, 0), (2, 0)] = [1, 1] := by
    unfold seg_lengths dist_two_points
    simp only [List.zip, List.zipWith, List.map]
    norm_num [Real.sqrt_one]
  have h2 : spline_cumdist [((0 : ℝ), 0), (1, 0), (2, 0)] = [1, 2, 2] := by
    unfold spline_cumdist
    rw [h1]
    norm_num [cumsumFromR, npDupLast]
  refine ⟨h2, ?_, by norm_num⟩
  rw [h2]
  rfl

section MatchLemmas

variable {R : Type} [LinearOrderedCommRing R]

theorem ok_bind {β γ : Type} (a : β) (f : β → Except Unit γ) :
    (Except.ok a : Except Unit β) >>= f = f a := rfl

theorem find?_split {β : Type} (p : β → Bool) :
    ∀ (l : List β) (a : β), l.find? p = some a →
      ∃ l1 l2, l = l1 ++ a :: l2 ∧ (∀ x ∈ l1, p x = false) ∧ p a = true := by
  intro l
  induction l with
  | nil => intro a h; simp [List.find?] at h
  | cons b t ih =>
    intro a h
    by_cases hb : p b = true
    · rw [List.find?_cons_of_pos _ hb] at h
      obtain rfl : b = a := by injection h
      refine ⟨[], t, rfl, ?_, hb⟩
      intro x hx
      cases hx
    · rw [List.find?_cons_of_neg _ hb] at h
      obtain ⟨l1, l2, rfl, h1, h2⟩ := ih a h
      refine ⟨b :: l1, l2, rfl, ?_, h2⟩
      intro x hx
      rcases List.mem_cons.mp hx with rfl | hx1
      · exact Bool.eq_false_iff.mpr hb
      · exact h1 x hx1

theorem mem_of_getElem?_some {β : Type} {l : List β} {i : Nat} {v : β}
    (h : l[i]? = some v) : v ∈ l := by
  obtain ⟨hlt, rfl⟩ := List.getElem?_eq_some_iff.mp h
  exact List.getElem_mem hlt

theorem firstIdxFrom_shift {β : Type} (p : β → Bool) :
    ∀ (l : List β) (i : Nat),
      firstIdxFrom p i l = (firstIdxFrom p 0 l).map (· + i) := by
  intro l
  induction l with
  | nil => intro i; rfl
  | cons c cs ih =>
    intro i
    by_cases hc : p c = true
    · simp [firstIdxFrom, hc]
    · simp only [firstIdxFrom, hc, Bool.false_eq_true, if_false]
      rw [ih (i + 1), ih 1, Option.map_map]
      cases firstIdxFrom p 0 cs with
      | none => rfl
      | some j =>
        simp only [Option.map_some', Function.comp, Option.some_inj]
        omega

theorem firstIdxFrom_zero_spec {β : Type} (p : β → Bool) :
    ∀ (l : List β) (j : Nat), firstIdxFrom p 0 l = some j →
      ∃ c, l[j]? = some c ∧ p c = true ∧
        ∀ k, k < j → ∀ c', l[k]? = some c' → p c' = false := by
  intro l
  induction l with
  | nil => intro j h; simp [firstIdxFrom] at h
  | cons c cs ih =>
    intro j h
    by_cases hc : p c = true
    · simp only [firstIdxFrom, hc, if_true] at h
      obtain rfl : (0 : Nat) = j := by injection h
      refine ⟨c, by simp, hc, ?_⟩
      intro k hk
      omega
    · simp only [firstIdxFrom, hc, Bool.false_eq_true, if_false] at h
      rw [firstIdxFrom_shift] at h
      cases hcs : firstIdxFrom p 0 cs with
      | none => rw [hcs] at h; exact absurd h (by simp)
      | some j' =>
        rw [hcs] at h
        simp only [Option.map_some'] at h
        obtain rfl : j' + (0 + 1) = j := by injection h
        obtain ⟨c0, hget, hpc0, hmin⟩ := ih j' hcs
        refine ⟨c0, ?_, hpc0, ?_⟩
        · have : j' + (0 + 1) = j' + 1 := by omega
          rw [this]
          simpa using hget
        · intro k hk c' hget'
          cases k with
          | zero =>
            obtain rfl : c = c' := by simpa using hget'
            exact Bool.eq_false_iff.mpr hc
          | succ k' => exact hmin k' (by omega) c' (by simpa using hget')

theorem firstIdxFrom_zero_isSome {β : Type} (p : β → Bool) :
    ∀ (l : List β), (∃ c ∈ l, p c = true) → (firstIdxFrom p 0 l).isSome := by
  intro l
  induction l with
  | nil => intro h; simp at h
  | cons c cs ih =>
    intro h
    by_cases hc : p c = true
    · simp [firstIdxFrom, hc]
    · simp only [firstIdxFrom, hc, Bool.false_eq_true, if_false]
      rw [firstIdxFrom_shift]
      obtain ⟨c0, hmem, hpc0⟩ := h
      rcases List.mem_cons.mp hmem with rfl | hmem1
      · exact absurd hpc0 hc
      · have hss := ih ⟨c0, hmem1, hpc0⟩
        cases hfi : firstIdxFrom p 0 cs with
        | none => rw [hfi] at hss; simp at hss
        | some j => simp

theorem firstIdxFrom_zero_eq_none {β : Type} (p : β → Bool) :
    ∀ (l : List β), (∀ c ∈ l, p c = false) → firstIdxFrom p 0 l = none := by
  intro l h
  cases hf : firstIdxFrom p 0 l with
  | none => rfl
  | some j =>
    obtain ⟨c, hget, hpc, _⟩ := firstIdxFrom_zero_spec p l j hf
    have hmem : c ∈ l := mem_of_getElem?_some hget
    rw [h c hmem] at hpc
    cases hpc

/-- Non-strict fraction comparison is transitive over positive denominators. -/
theorem Frac.ble_trans {x y z : Frac R} (hx : 0 < x.den) (hy : 0 < y.den)
    (hz : 0 < z.den) (h1 : Frac.ble x y = true) (h2 : Frac.ble y z = true) :
    Frac.ble x z = true := by
  simp only [Frac.ble, decide_eq_true_eq] at h1 h2 ⊢
  have ha : x.num * y.den * z.den ≤ y.num * x.den * z.den :=
    mul_le_mul_of_nonneg_right h1 (le_of_lt hz)
  have hb : y.num * z.den * x.den ≤ z.num * y.den * x.den :=
    mul_le_mul_of_nonneg_right h2 (le_of_lt hx)
  have hc : x.num * z.den * y.den ≤ z.num * x.den * y.den := by
    calc x.num * z.den * y.den = x.num * y.den * z.den := by ring
    _ ≤ y.num * x.den * z.den := ha
    _ = y.num * z.den * x.den := by ring
    _ ≤ z.num * y.den * x.den := hb
    _ = z.num * x.den * y.den := by ring
  exact le_of_mul_le_mul_right hc hy

/-- A strict comparison yields a non-strict one. -/
theorem Frac.ble_of_blt {x y : Frac R} (h : Frac.blt x y = true) :
    Frac.ble x y = true := by
  simp only [Frac.blt, decide_eq_true_eq] at h
  simp only [Frac.ble, decide_eq_true_eq]
  exact le_of_lt h

/-- A failed strict comparison yields the reverse non-strict one. -/
theorem Frac.ble_of_not_blt {x y : Frac R} (h : Frac.blt x y = false) :
    Frac.ble y x = true := by
  simp only [Frac.blt, decide_eq_false_iff_not, not_lt] at h
  simp only [Frac.ble, decide_eq_true_eq]
  exact h

/-- Reflexivity of the non-strict comparison. -/
theorem Frac.ble_refl (x : Frac R) : Frac.ble x x = true := by
  simp [Frac.ble]

theorem sqDistPtSeg_den_pos (p : Pt R) (s : Seg R) : 0 < (sqDistPtSeg p s).den := by
  unfold sqDistPtSeg
  dsimp only
  split_ifs with h0 h1 h2
  · exact one_pos
  · exact one_pos
  · exact one_pos
  · have hnn : 0 ≤ (s.2.1 - s.1.1) * (s.2.1 - s.1.1) + (s.2.2 - s.1.2) * (s.2.2 - s.1.2) :=
      add_nonneg (mul_self_nonneg _) (mul_self_nonneg _)
    exact lt_of_le_of_ne hnn (Ne.symm h0)

theorem sqDistPtRing_den_pos (p : Pt R) (L : Polyline R) :
    0 < (sqDistPtRing p L).den := by
  unfold sqDistPtRing
  cases hm : (ringEdges L).map (sqDistPtSeg p) with
  | nil => exact one_pos
  | cons d ds =>
    have hall : ∀ x ∈ d :: ds, 0 < Frac.den x := by
      rw [← hm]
      intro x hx
      obtain ⟨s0, _, rfl⟩ := List.mem_map.mp hx
      exact sqDistPtSeg_den_pos p s0
    have hgen : ∀ (l : List (Frac R)) (acc : Frac R), 0 < acc.den →
        (∀ x ∈ l, 0 < x.den) →
        0 < (l.foldl (fun acc x => if Frac.blt x acc then x else acc) acc).den := by
      intro l
      induction l with
      | nil => intro acc ha _; exact ha
      | cons x xs ih =>
        intro acc ha hl
        simp only [List.foldl]
        by_cases hx : Frac.blt x acc = true
        · rw [hx]
          simp only [if_true]
          exact ih x (hl x (List.mem_cons_self x xs)) fun z hz => hl z (List.mem_cons_of_mem x hz)
        · rw [Bool.eq_false_iff.mpr hx]
          simp only [Bool.false_eq_true, if_false]
          exact ih acc ha fun z hz => hl z (List.mem_cons_of_mem x hz)
    exact hgen ds d (hall d (List.mem_cons_self d ds)) fun z hz => hall z (List.mem_cons_of_mem d hz)

theorem argminAux_spec :
    ∀ (xs : List (Frac R)) (best : Frac R) (i besti : Nat), 0 < best.den →
      (∀ x ∈ xs, 0 < x.den) →
      ∃ v : Frac R, 0 < v.den ∧
        ((argminAux xs best i besti = besti ∧ v = best) ∨
         (∃ j, argminAux xs best i besti = i + j ∧ xs[j]? = some v)) ∧
        Frac.ble v best = true ∧ ∀ x ∈ xs, Frac.ble v x = true := by
  intro xs
  induction xs with
  | nil =>
    intro best i besti hb _
    exact ⟨best, hb, Or.inl ⟨rfl, rfl⟩, Frac.ble_refl best, by intro x hx; cases hx⟩
  | cons x xs ih =>
    intro best i besti hb hl
    have hxden : 0 < x.den := hl x (List.mem_cons_self x xs)
    have hxs : ∀ z ∈ xs, 0 < z.den := fun z hz => hl z (List.mem_cons_of_mem x hz)
    by_cases hx : Frac.blt x best = true
    · simp only [argminAux, hx, if_true]
      obtain ⟨v, hv, hloc, hvb, hvxs⟩ := ih x (i + 1) i hxden hxs
      have hvbest : Frac.ble v best = true :=
        Frac.ble_trans hv hxden hb hvb (Frac.ble_of_blt hx)
      refine ⟨v, hv, ?_, hvbest, ?_⟩
      · rcases hloc with ⟨hres, rfl⟩ | ⟨j, hres, hget⟩
        · refine Or.inr ⟨0, by rw [hres]; omega, by simp⟩
        · refine Or.inr ⟨j + 1, by rw [hres]; omega, by simpa using hget⟩
      · intro z hz
        rcases List.mem_cons.mp hz with rfl | hz1
        · exact hvb
        · exact hvxs z hz1
    · have hx' : Frac.blt x best = false := Bool.eq_false_iff.mpr hx
      simp only [argminAux, hx', Bool.false_eq_true, if_false]
      obtain ⟨v, hv, hloc, hvb, hvxs⟩ := ih best (i + 1) besti hb hxs
      refine ⟨v, hv, ?_, hvb, ?_⟩
      · rcases hloc with ⟨hres, rfl⟩ | ⟨j, hres, hget⟩
        · exact Or.inl ⟨hres, rfl⟩
        · refine Or.inr ⟨j + 1, by rw [hres]; omega, by simpa using hget⟩
      · intro z hz
        rcases List.mem_cons.mp hz with rfl | hz1
        · exact Frac.ble_trans hv hb hxden hvb (Frac.ble_of_not_blt hx')
        · exact hvxs z hz1

theorem argminF_spec (l : List (Frac R)) (i : Nat)
    (hl : ∀ x ∈ l, 0 < x.den) (h : argminF l = some i) :
    ∃ v, l[i]? = some v ∧ ∀ x ∈ l, Frac.ble v x = true := by
  cases l with
  | nil => simp [argminF] at h
  | cons x xs =>
    simp only [argminF] at h
    obtain rfl : argminAux xs x 1 0 = i := by injection h
    obtain ⟨v, _, hloc, hvb, hvxs⟩ :=
      argminAux_spec xs x 1 0 (hl x (List.mem_cons_self x xs))
        (fun z hz => hl z (List.mem_cons_of_mem x hz))
    refine ⟨v, ?_, ?_⟩
    · rcases hloc with ⟨hres, rfl⟩ | ⟨j, hres, hget⟩
      · rw [hres]; simp
      · have h1j : (1 : Nat) + j = j + 1 := by omega
        rw [hres, h1j]
        simpa using hget
    · intro z hz
      rcases List.mem_cons.mp hz with rfl | hz1
      · exact hvb
      · exact hvxs z hz1

theorem argminF_cells_ok (cells : List (CellRec R)) (p : Pt R) (hne : cells ≠ []) :
    ∃ i c, argminF (cells.map fun c => sqDistPtRing p c.ring) = some i ∧
      i < cells.length ∧ cells[i]? = some c ∧
      ∀ c' ∈ cells,
        Frac.ble (sqDistPtRing p c.ring) (sqDistPtRing p c'.ring) = true := by
  cases hargmin : argminF (cells.map fun c => sqDistPtRing p c.ring) with
  | none =>
    cases hcells : cells with
    | nil => exact absurd hcells hne
    | cons c0 cs => rw [hcells] at hargmin; simp [argminF] at hargmin
  | some i =>
    obtain ⟨v, hget, hmin⟩ := argminF_spec _ i
      (by
        intro z hz
        obtain ⟨c0, _, rfl⟩ := List.mem_map.mp hz
        exact sqDistPtRing_den_pos p c0.ring) hargmin
    have hlen := (List.getElem?_eq_some_iff.mp hget).1
    rw [List.length_map] at hlen
    rw [List.getElem?_map] at hget
    cases hcell : cells[i]? with
    | none => rw [hcell] at hget; simp at hget
    | some c =>
      rw [hcell] at hget
      simp only [Option.map_some'] at hget
      obtain rfl : sqDistPtRing p c.ring = v := by injection hget
      refine ⟨i, c, rfl, hlen, hcell, ?_⟩
      intro c' hc'
      exact hmin _ (List.mem_map_of_mem _ hc')

theorem gtci_ok_of_ne_nil (tn : Bool) (cells : List (CellRec R)) (p : Pt R)
    (h : cells ≠ []) :
    ∃ i, get_target_cell_id tn cells p = Except.ok i ∧ i < cells.length := by
  unfold get_target_cell_id
  cases tn with
  | true =>
    simp only [if_true]
    cases hscan : firstIdxFrom (fun c => ringContains c.ring p) 0 cells with
    | some j =>
      obtain ⟨c, hget, _, _⟩ := firstIdxFrom_zero_spec _ cells j hscan
      exact ⟨j, rfl, (List.getElem?_eq_some_iff.mp hget).1⟩
    | none =>
      obtain ⟨i, c, hargmin, hlt, _, _⟩ := argminF_cells_ok cells p h
      exact ⟨i, by rw [hargmin], hlt⟩
  | false =>
    simp only [Bool.false_eq_true, if_false]
    obtain ⟨i, c, hargmin, hlt, _, _⟩ := argminF_cells_ok cells p h
    exact ⟨i, by rw [hargmin], hlt⟩

theorem gtci_contains (cells : List (CellRec R)) (p : Pt R)
    (h : ∃ c ∈ cells, ringContains c.ring p = true) :
    ∃ i c, get_target_cell_id true cells p = Except.ok i ∧ cells[i]? = some c ∧
      ringContains c.ring p = true ∧
      ∀ k, k < i → ∀ c', cells[k]? = some c' → ringContains c'.ring p = false := by
  have hsome := firstIdxFrom_zero_isSome (fun c => ringContains c.ring p) cells h
  cases hscan : firstIdxFrom (fun c => ringContains c.ring p) 0 cells with
  | none => rw [hscan] at hsome; simp at hsome
  | some j =>
    obtain ⟨c, hget, hpc, hmin⟩ := firstIdxFrom_zero_spec _ cells j hscan
    refine ⟨j, c, ?_, hget, hpc, hmin⟩
    unfold get_target_cell_id
    rw [if_pos rfl, hscan]

theorem gtci_no_contain (cells : List (CellRec R)) (p : Pt R)
    (hc : ∀ c ∈ cells, ringContains c.ring p = false) (hne : cells ≠ []) :
    ∃ i c, get_target_cell_id true cells p = Except.ok i ∧ cells[i]? = some c ∧
      ∀ c' ∈ cells,
        Frac.ble (sqDistPtRing p c.ring) (sqDistPtRing p c'.ring) = true := by
  have hscan := firstIdxFrom_zero_eq_none (fun c => ringContains c.ring p) cells hc
  obtain ⟨i, c, hargmin, _, hcell, hmin⟩ := argminF_cells_ok cells p hne
  refine ⟨i, c, ?_, hcell, hmin⟩
  unfold get_target_cell_id
  rw [if_pos rfl, hscan, hargmin]

theorem matchInLane_ok (target : Option Nat) (lid : Nat) (lane : LaneRec R)
    (x y : R) (maxCells cid : Nat)
    (hcid : get_target_cell_id target.isNone lane.cells (x, y) = Except.ok cid)
    (hlt : cid < lane.cells.length) :
    ∃ r, matchInLane target lid lane x y maxCells = Except.ok r ∧
      r.lane_id = some lid ∧ r.cell_id = some cid ∧
      r.left_bound_dist.isSome = true ∧ r.right_bound_dist.isSome = true ∧
      r.center_line_dist.isSome = true := by
  unfold matchInLane
  rw [hcid]
  dsimp only
  rw [List.getElem?_eq_getElem hlt]
  exact ⟨_, rfl, rfl, rfl, rfl, rfl, rfl⟩

end MatchLemmas

/-- C5: a query with no target lane whose point lies in no lane polygon
returns the all-empty no-match result and raises no exception. -/
theorem claim_C5 {R : Type} [LinearOrderedCommRing R] (s : MapState R) (x y : R)
    (maxCells : Nat) (h : ∀ q ∈ s.lanes, ringContains q.2.ring (x, y) = false) :
    matchPt s x y none maxCells = Except.ok (noMatchResult maxCells) := by
  have hf : s.lanes.find?
      (fun q => (none : Option Nat).isSome || ringContains q.2.ring (x, y)) = none := by
    rw [List.find?_eq_none]
    intro q hq
    simp [h q hq]
  simp only [matchPt, hf]

/-- Witness for claim_C5: a point far outside the example map. -/
theorem claim_C5_witness :
    matchPt mapStraight 100 100 none 5 = Except.ok (noMatchResult 5) :=
  claim_C5 mapStraight 100 100 5 (by decide)

/-- C6: when a target lane id present in the lanes dictionary is supplied,
match and match_frenet bypass the polygon containment test and always
return that lane id with all matched fields populated, for any query point;
the lane only needs a nonempty cell list (a lane with no cells would make
np.argmin raise).  The frenet projector functions are spec-modelled
parameters, see match_frenet. -/
theorem claim_C6 {R : Type} [LinearOrderedCommRing R] (s : MapState R) (x y : R)
    (t maxCells : Nat) (lane : LaneRec R)
    (hl : assocFind? s.lanes t = some lane) (hc : lane.cells ≠ [])
    (frenetCoords : LaneRec R → R → R → R × R × R × R × R × R)
    (waypointsFn : LaneRec R → R → R → List R → List (Pt R) × List R) (cellLen : R) :
    (∃ r, matchPt s x y (some t) maxCells = Except.ok r ∧ r.lane_id = some t ∧
      r.cell_id.isSome = true ∧ r.left_bound_dist.isSome = true ∧
      r.right_bound_dist.isSome = true ∧ r.center_line_dist.isSome = true) ∧
    (∃ fr, match_frenet frenetCoords waypointsFn cellLen s x y (some t) maxCells =
        Except.ok fr ∧ fr.lane_id = some t ∧ fr.psi_tan.isSome = true ∧
      fr.center_line_dist.isSome = true ∧ fr.left_bound_dist.isSome = true ∧
      fr.right_bound_dist.isSome = true ∧ fr.wp_coords.isSome = true ∧
      fr.wp_headings.isSome = true) := by
  constructor
  · obtain ⟨cid, hcid, hlt⟩ := gtci_ok_of_ne_nil (some t : Option Nat).isNone lane.cells (x, y) hc
    obtain ⟨r, hr, h1, h2, h3, h4, h5⟩ := matchInLane_ok (some t) t lane x y maxCells cid hcid hlt
    refine ⟨r, ?_, h1, by rw [h2]; rfl, h3, h4, h5⟩
    have hfind : ([(t, lane)] : List (Nat × LaneRec R)).find?
        (fun q => (some t : Option Nat).isSome || ringContains q.2.ring (x, y)) =
        some (t, lane) := List.find?_cons_of_pos _ (by simp)
    simp only [matchPt, hl, Option.map_some', hfind]
    exact hr
  · have hfind : ([(t, lane)] : List (Nat × LaneRec R)).find?
        (fun q => (some t : Option Nat).isSome || ringContains q.2.ring (x, y)) =
        some (t, lane) := List.find?_cons_of_pos _ (by simp)
    simp only [match_frenet, hl, Option.map_some', hfind]
    exact ⟨_, rfl, rfl, rfl, rfl, rfl, rfl, rfl, rfl⟩

/-- C3: the claim states match prefers the cell containing the point both
when target_lane_id is None and when a target_lane_id is supplied.  The
second half fails: the containment scan inside get_target_cell_id runs only
when target_lane_id is None, so with a target lane only the
nearest-exterior-distance fallback runs, and on distance ties it returns a
lower-indexed cell that does not contain the point.  Amended claim: when
target_lane_id is None, get_target_cell_id returns the first cell whose
polygon contains the point whenever any cell contains it. -/
theorem claim_C3_amended {R : Type} [LinearOrderedCommRing R]
    (cells : List (CellRec R)) (p : Pt R)
    (h : ∃ c ∈ cells, ringContains c.ring p = true) :
    ∃ i c, get_target_cell_id true cells p = Except.ok i ∧ cells[i]? = some c ∧
      ringContains c.ring p = true ∧
      ∀ k, k < i → ∀ c', cells[k]? = some c' → ringContains c'.ring p = false :=
  gtci_contains cells p h

/-- Witness for claim_C3_amended: the point (10, 1) lies strictly inside
the first cell of the example lane. -/
theorem claim_C3_amended_witness :
    ∃ i c, get_target_cell_id true laneStraight.cells ((10 : ℤ), 1) = Except.ok i ∧
      laneStraight.cells[i]? = some c ∧ ringContains c.ring ((10 : ℤ), 1) = true ∧
      ∀ k, k < i → ∀ c', laneStraight.cells[k]? = some c' →
        ringContains c'.ring ((10 : ℤ), 1) = false :=
  claim_C3_amended laneStraight.cells ((10 : ℤ), 1) ⟨cellLow, by decide, by decide⟩

/-- C3 counterexample: on the straight example lane with target lane 0 and
query point (21, 1), the second cell strictly contains the point, but match
returns cell 0: with a target lane the containment scan is skipped and the
exterior distances of both cells tie at 1 (the point is 1 away from the
shared edge x = 20 and 1 away from each long edge of its own cell), so
np.argmin picks the first index. -/
theorem claim_C3_counterexample :
    resCellId (matchPt mapStraight 21 1 (some 0) 5) = some 0 ∧
    laneStraight.cells[0]? = some cellLow ∧
    laneStraight.cells[1]? = some cellHigh ∧
    ringContains cellHigh.ring ((21 : ℤ), 1) = true ∧
    ringContains cellLow.ring ((21 : ℤ), 1) = false := by decide

/-- C1: the claim states that a point inside some lane polygon is matched
to the first containing lane together with a cell whose polygon contains
the point.  The lane part holds, but the cell part fails: a point of the
lane interior that lies on the shared edge of two cells (or beyond the
last cell of a curved lane) is contained in no cell polygon, and match
falls back to the nearest cell.  Amended claim: match returns the first
containing lane in insertion order, and within it the first cell
containing the point when one exists, else a cell of minimal exterior
distance; lanes are assumed to have nonempty cell lists (np.argmin raises
otherwise). -/
theorem claim_C1_amended {R : Type} [LinearOrderedCommRing R] (s : MapState R)
    (x y : R) (maxCells : Nat)
    (hw : ∀ q ∈ s.lanes, q.2.cells ≠ [])
    (hc : ∃ q ∈ s.lanes, ringContains q.2.ring (x, y) = true) :
    ∃ lid lane l1 l2 r,
      s.lanes = l1 ++ (lid, lane) :: l2 ∧
      (∀ q ∈ l1, ringContains q.2.ring (x, y) = false) ∧
      ringContains lane.ring (x, y) = true ∧
      matchPt s x y none maxCells = Except.ok r ∧ r.lane_id = some lid ∧
      ∃ cid, r.cell_id = some cid ∧ cid < lane.cells.length ∧
        ((∃ c ∈ lane.cells, ringContains c.ring (x, y) = true) →
          ∀ c, lane.cells[cid]? = some c → ringContains c.ring (x, y) = true) ∧
        ((∀ c ∈ lane.cells, ringContains c.ring (x, y) = false) →
          ∀ c, lane.cells[cid]? = some c → ∀ c' ∈ lane.cells,
            Frac.ble (sqDistPtRing (x, y) c.ring)
              (sqDistPtRing (x, y) c'.ring) = true) := by
  cases hfind : s.lanes.find?
      (fun q => (none : Option Nat).isSome || ringContains q.2.ring (x, y)) with
  | none =>
    rw [List.find?_eq_none] at hfind
    obtain ⟨q, hq, hqc⟩ := hc
    have := hfind q hq
    simp [hqc] at this
  | some ql =>
    obtain ⟨lid, lane⟩ := ql
    obtain ⟨l1, l2, hsplit, hl1, hpred⟩ := find?_split _ s.lanes (lid, lane) hfind
    have hlane : ringContains lane.ring (x, y) = true := by simpa using hpred
    have hl1' : ∀ q ∈ l1, ringContains q.2.ring (x, y) = false := by
      intro q hq
      simpa using hl1 q hq
    have hmem : (lid, lane) ∈ s.lanes := by
      rw [hsplit]
      exact List.mem_append_right _ (List.mem_cons_self _ _)
    have hcne : lane.cells ≠ [] := hw _ hmem
    by_cases hcc : ∃ c ∈ lane.cells, ringContains c.ring (x, y) = true
    · obtain ⟨i, c, hok, hget, hcont, _⟩ := gtci_contains lane.cells (x, y) hcc
      have hlt : i < lane.cells.length := (List.getElem?_eq_some_iff.mp hget).1
      obtain ⟨r, hr, h1, h2, _, _, _⟩ :=
        matchInLane_ok none lid lane x y maxCells i hok hlt
      refine ⟨lid, lane, l1, l2, r, hsplit, hl1', hlane, ?_, h1, i, h2, hlt, ?_, ?_⟩
      · simp only [matchPt, hfind]
        exact hr
      · intro _ c' hc'
        rw [hget] at hc'
        obtain rfl : c = c' := Option.some.inj hc'
        exact hcont
      · intro hnone
        obtain ⟨c0, hc0m, hc0t⟩ := hcc
        rw [hnone c0 hc0m] at hc0t
        cases hc0t
    · have hnc : ∀ c ∈ lane.cells, ringContains c.ring (x, y) = false := by
        intro c hcm
        cases hb : ringContains c.ring (x, y) with
        | false => rfl
        | true => exact absurd ⟨c, hcm, hb⟩ hcc
      obtain ⟨i, c, hok, hget, hmin⟩ := gtci_no_contain lane.cells (x, y) hnc hcne
      have hlt : i < lane.cells.length := (List.getElem?_eq_some_iff.mp hget).1
      obtain ⟨r, hr, h1, h2, _, _, _⟩ :=
        matchInLane_ok none lid lane x y maxCells i hok hlt
      refine ⟨lid, lane, l1, l2, r, hsplit, hl1', hlane, ?_, h1, i, h2, hlt, ?_, ?_⟩
      · simp only [matchPt, hfind]
        exact hr
      · intro hex
        exact absurd hex hcc
      · intro _ c' hc'
        rw [hget] at hc'
        obtain rfl : c = c' := Option.some.inj hc'
        exact hmin

/-- Witness for claim_C1_amended: the example map at the interior point
(10, 1) of its first cell. -/
theorem claim_C1_amended_witness :
    ∃ lid lane l1 l2 r,
      mapStraight.lanes = l1 ++ (lid, lane) :: l2 ∧
      (∀ q ∈ l1, ringContains q.2.ring ((10 : ℤ), 1) = false) ∧
      ringContains lane.ring ((10 : ℤ), 1) = true ∧
      matchPt mapStraight 10 1 none 5 = Except.ok r ∧ r.lane_id = some lid ∧
      ∃ cid, r.cell_id = some cid ∧ cid < lane.cells.length ∧
        ((∃ c ∈ lane.cells, ringContains c.ring ((10 : ℤ), 1) = true) →
          ∀ c, lane.cells[cid]? = some c → ringContains c.ring ((10 : ℤ), 1) = true) ∧
        ((∀ c ∈ lane.cells, ringContains c.ring ((10 : ℤ), 1) = false) →
          ∀ c, lane.cells[cid]? = some c → ∀ c' ∈ lane.cells,
            Frac.ble (sqDistPtRing ((10 : ℤ), 1) c.ring)
              (sqDistPtRing ((10 : ℤ), 1) c'.ring) = true) :=
  claim_C1_amended mapStraight 10 1 5 (by decide) (by decide)

/-- C1 counterexample: the point (20, 1) lies strictly inside the example
lane polygon (match returns the lane), but on the shared edge of its two
cells, so no cell polygon contains it; the returned cell 0 does not contain
the point, contradicting the claim that the matched cell polygon contains
the query point. -/
theorem claim_C1_counterexample :
    ringContains laneStraight.ring ((20 : ℤ), 1) = true ∧
    resLaneId (matchPt mapStraight 20 1 none 5) = some 0 ∧
    resCellId (matchPt mapStraight 20 1 none 5) = some 0 ∧
    laneStraight.cells[0]? = some cellLow ∧
    ringContains cellLow.ring ((20 : ℤ), 1) = false ∧
    ringContains cellHigh.ring ((20 : ℤ), 1) = false := by decide

/-- Witness for claim_C6: the example map with target lane 0 and a far
query point, with constant frenet projector functions. -/
theorem claim_C6_witness :
    (∃ r, matchPt mapStraight 100 100 (some 0) 5 = Except.ok r ∧ r.lane_id = some 0 ∧
      r.cell_id.isSome = true ∧ r.left_bound_dist.isSome = true ∧
      r.right_bound_dist.isSome = true ∧ r.center_line_dist.isSome = true) ∧
    (∃ fr, match_frenet (fun _ _ _ => (0, 0, 0, 0, 0, 0)) (fun _ _ _ _ => ([], []))
        10 mapStraight 100 100 (some 0) 5 = Except.ok fr ∧ fr.lane_id = some 0 ∧
      fr.psi_tan.isSome = true ∧ fr.center_line_dist.isSome = true ∧
      fr.left_bound_dist.isSome = true ∧ fr.right_bound_dist.isSome = true ∧
      fr.wp_coords.isSome = true ∧ fr.wp_headings.isSome = true) :=
  claim_C6 mapStraight 100 100 0 5 laneStraight (by decide) (by decide)
    (fun _ _ _ => (0, 0, 0, 0, 0, 0)) (fun _ _ _ _ => ([], [])) 10

end L2
